import Mathlib

/-
Verification development for the market-data aggregation engine of the
bitpulse market_data_aggregator repository.

The definitions below are a shallow embedding of the exchange client in
src/src/binance/transactions.py (class BinanceWebSocket and main).  The
KuCoin variant in src/src/kucoin_data/transactions.py implements the same
window-aggregation, big-transaction and retry logic; where a claim cites
both files, the Binance variant is embedded and the KuCoin one coincides
with it on the modelled behaviour.

Modelling conventions:
- Python floats for prices and quantities are modelled exactly as rationals.
- Timestamps are naturals counting milliseconds since the epoch;
  datetime.fromtimestamp(ms / 1000).replace(microsecond=0) is whole-second
  truncation, i.e. ms / 1000 in seconds.
- The per-symbol dictionaries self.transactions and self.big_transactions
  are association lists whose keys are, after initialisation, exactly the
  configured pairs (the dict comprehension over self.pairs).
- Caught exceptions (the KeyError handler of handle_message, the blanket
  handlers of bulk_insert) are modelled as ordinary return values; a raised
  KeyError that is caught leaves behind exactly the mutations performed
  before it was raised, as in Python.
- I/O (Mongo writes, Prometheus counters, printing) is modelled as emitted
  values: flushed documents and a list of metric-increment events.
-/

/- The Batteries rational arithmetic definitions are irreducible by default,
which blocks kernel evaluation of concrete states; re-enable reduction so
that closed statements about concrete trades can be settled by decide. -/
set_option allowUnsafeReducibility true in
attribute [semireducible] Rat.mul Rat.inv Rat.add Rat.sub

abbrev Symb := String

inductive Side
| buy
| sell
deriving DecidableEq

/-- A normalized trade, as extracted by handle_message from one Binance
trade frame: fields s, p, q, T, m. -/
structure Trade where
  symbol : Symb
  price : ℚ
  quantity : ℚ
  timestampMs : ℕ
  isBuyerMaker : Bool
deriving DecidableEq

/-- trade_side = "sell" if is_buyer_maker else "buy". -/
def Trade.side (t : Trade) : Side := if t.isBuyerMaker then Side.sell else Side.buy

/-- transaction_value = price * quantity. -/
def Trade.value (t : Trade) : ℚ := t.price * t.quantity

/-- interval_start = transaction_time.replace(microsecond=0): the event time
(milliseconds since epoch) truncated to whole seconds. -/
def Trade.windowStart (t : Trade) : ℕ := t.timestampMs / 1000

/-- base_currency = symbol[:-4]. -/
def baseOf (s : Symb) : Symb := s.dropRight 4

/-- quote_currency = symbol[-4:]. -/
def quoteOf (s : Symb) : Symb := s.takeRight 4

/-- One element of self.transactions[symbol][side]. -/
structure TxEntry where
  price : ℚ
  quantity : ℚ
  baseCurrency : Symb
  quoteCurrency : Symb
deriving DecidableEq

def Trade.toEntry (t : Trade) : TxEntry :=
  ⟨t.price, t.quantity, baseOf t.symbol, quoteOf t.symbol⟩

/-- One element of self.big_transactions[symbol][side]. -/
structure BigEntry where
  price : ℚ
  quantity : ℚ
  value : ℚ
  timestampMs : ℕ
  baseCurrency : Symb
  quoteCurrency : Symb
deriving DecidableEq

def Trade.toBigEntry (t : Trade) : BigEntry :=
  ⟨t.price, t.quantity, t.value, t.timestampMs, baseOf t.symbol, quoteOf t.symbol⟩

/-- The {'buy': [...], 'sell': [...]} inner dictionary. -/
structure SideLists (α : Type) where
  buy : List α
  sell : List α
deriving DecidableEq

def emptySides {α : Type} : SideLists α := ⟨[], []⟩

def SideLists.get {α : Type} (l : SideLists α) : Side → List α
| Side.buy => l.buy
| Side.sell => l.sell

def SideLists.append1 {α : Type} (l : SideLists α) : Side → α → SideLists α
| Side.buy, a => ⟨l.buy ++ [a], l.sell⟩
| Side.sell, a => ⟨l.buy, l.sell ++ [a]⟩

/-- The outer per-symbol dictionary, as an association list. -/
abbrev PairMap (α : Type) := List (Symb × SideLists α)

def pmFind {α : Type} : PairMap α → Symb → Option (SideLists α)
| [], _ => none
| (k, v) :: rest, s => if k = s then some v else pmFind rest s

def pmUpdate {α : Type} : PairMap α → Symb → (SideLists α → SideLists α) → PairMap α
| [], _, _ => []
| (k, v) :: rest, s, f => if k = s then (k, f v) :: rest else (k, v) :: pmUpdate rest s f

/-- {pair: {'buy': [], 'sell': []} for pair in self.pairs}. -/
def pmInit {α : Type} (pairs : List Symb) : PairMap α :=
  pairs.map (fun p => (p, emptySides))

def keysOf {α : Type} (m : PairMap α) : List Symb := m.map Prod.fst

/-- The mutable state of BinanceWebSocket that the aggregation logic uses:
current_interval (seconds), transactions, big_transactions. -/
structure AggState where
  currentInterval : Option ℕ
  txns : PairMap TxEntry
  bigTxns : PairMap BigEntry
deriving DecidableEq

/-- State right after __init__: current_interval = None and both dicts {}. -/
def initState : AggState := ⟨none, [], []⟩

/-- The per-side statistics of one emitted window-stats document. -/
structure SideAgg where
  count : ℕ
  totalQuantity : ℚ
  totalValue : ℚ
  minPrice : ℚ
  maxPrice : ℚ
  avgPrice : ℚ
deriving DecidableEq

/-- One window-stats document as built by process_and_store_data; a side with
no trades contributes no fields (modelled as none). -/
structure StatsDoc where
  timestamp : ℕ
  symbol : Symb
  source : String
  baseCurrency : Symb
  quoteCurrency : Symb
  buy : Option SideAgg
  sell : Option SideAgg
deriving DecidableEq

/-- One big-transaction document as built by process_and_store_data. -/
structure BigDoc where
  timestampMs : ℕ
  symbol : Symb
  side : Side
  price : ℚ
  quantity : ℚ
  value : ℚ
  source : String
  baseCurrency : Symb
  quoteCurrency : Symb
deriving DecidableEq

/-- Everything one call of process_and_store_data hands to the sinks. -/
structure Flush where
  stats : List StatsDoc
  bigs : List BigDoc
deriving DecidableEq

def listMin : List ℚ → ℚ
| [] => 0
| x :: xs => xs.foldl min x

def listMax : List ℚ → ℚ
| [] => 0
| x :: xs => xs.foldl max x

def sumQty (l : List TxEntry) : ℚ := (l.map (fun e => e.quantity)).sum

def sumVal (l : List TxEntry) : ℚ := (l.map (fun e => e.price * e.quantity)).sum

/-- The per-side block of process_and_store_data: if the side's trade list is
nonempty, count/total_quantity/total_value/min/max/avg fields are produced;
otherwise no fields for this side appear in the document. -/
def mkSideAgg (l : List TxEntry) : Option SideAgg :=
  if l = [] then none
  else some
    { count := l.length
      totalQuantity := sumQty l
      totalValue := sumVal l
      minPrice := listMin (l.map (fun e => e.price))
      maxPrice := listMax (l.map (fun e => e.price))
      avgPrice := sumVal l / sumQty l }

def mkStatsDoc (c : ℕ) (sym : Symb) (d : SideLists TxEntry) : StatsDoc :=
  { timestamp := c
    symbol := sym
    source := "binance"
    baseCurrency := baseOf sym
    quoteCurrency := quoteOf sym
    buy := mkSideAgg d.buy
    sell := mkSideAgg d.sell }

def mkBigDoc (sym : Symb) (sd : Side) (e : BigEntry) : BigDoc :=
  { timestampMs := e.timestampMs
    symbol := sym
    side := sd
    price := e.price
    quantity := e.quantity
    value := e.value
    source := "binance"
    baseCurrency := e.baseCurrency
    quoteCurrency := e.quoteCurrency }

/-- big_trades = self.big_transactions[symbol]; one document per pending big
trade, buy side first then sell side. -/
def bigDocsFor (bigs : PairMap BigEntry) (sym : Symb) : List BigDoc :=
  let b := (pmFind bigs sym).getD emptySides
  b.buy.map (mkBigDoc sym Side.buy) ++ b.sell.map (mkBigDoc sym Side.sell)

def bigDumpKeys (ks : List Symb) (bigs : PairMap BigEntry) : List BigDoc :=
  ks.flatMap (bigDocsFor bigs)

/-- The big-transaction documents of one flush: process_and_store_data walks
self.transactions.items() (only the symbol is used) and reads
self.big_transactions[symbol]. -/
def bigDump (txns : PairMap TxEntry) (bigs : PairMap BigEntry) : List BigDoc :=
  bigDumpKeys (keysOf txns) bigs

/-- process_and_store_data: one stats document per symbol that has at least
one trade in the closing interval, plus all pending big-transaction
documents.  (The price documents and the coingecko_data price updates that
the same function also writes are not needed by any claim and are omitted;
they read the same per-side sums and touch neither self.transactions nor
self.big_transactions.) -/
def processAndStore (c : ℕ) (txns : PairMap TxEntry) (bigs : PairMap BigEntry) : Flush :=
  { stats := txns.filterMap (fun pr =>
      if pr.2.buy = [] ∧ pr.2.sell = [] then none
      else some (mkStatsDoc c pr.1 pr.2))
    bigs := bigDump txns bigs }

/-- One Prometheus counter/gauge update performed by handle_message. -/
inductive MetricEv
| tradesTotal (symbol : Symb) (side : Side)
| transactionValue (symbol : Symb) (side : Side) (v : ℚ)
| priceGauge (symbol : Symb) (p : ℚ)
| bigTransactions (symbol : Symb) (side : Side)
deriving DecidableEq

/-- The observable result of one handle_message call: the new state, the
flush emitted by process_and_store_data (if the window advanced), the metric
updates performed, and whether the KeyError handler fired. -/
structure HMResult where
  state : AggState
  flush : Option Flush
  metrics : List MetricEv
  keyError : Bool
deriving DecidableEq

/-- self.current_interval is None or interval_start > self.current_interval. -/
def rollCheck (cur : Option ℕ) (i : ℕ) : Bool :=
  match cur with
  | none => true
  | some c => decide (c < i)

/-- The state right after the window-advance branch: current_interval is the
new interval and both dictionaries are re-created over self.pairs. -/
def rolledState (pairs : List Symb) (i : ℕ) : AggState :=
  ⟨some i, pmInit pairs, pmInit pairs⟩

/-- The tail of handle_message after the window-advance branch: look up
self.transactions[symbol] (a missing symbol raises KeyError, which the
handler catches after any window advance already happened), append the trade
to its side list, update the Prometheus metrics, and append a big-transaction
entry when transaction_value >= BIG_TRANSACTION_THRESHOLD. -/
def accumulate (threshold : ℚ) (t : Trade) (flush : Option Flush) (s1 : AggState) : HMResult :=
  match pmFind s1.txns t.symbol with
  | none => ⟨s1, flush, [], true⟩
  | some _ =>
    let s2 : AggState :=
      { s1 with txns := pmUpdate s1.txns t.symbol (fun d => d.append1 t.side t.toEntry) }
    let baseMetrics : List MetricEv :=
      [MetricEv.tradesTotal t.symbol t.side,
       MetricEv.transactionValue t.symbol t.side t.value,
       MetricEv.priceGauge t.symbol t.price]
    if threshold ≤ t.value then
      ⟨{ s2 with bigTxns := pmUpdate s2.bigTxns t.symbol (fun d => d.append1 t.side t.toBigEntry) },
       flush,
       baseMetrics ++ [MetricEv.bigTransactions t.symbol t.side],
       false⟩
    else ⟨s2, flush, baseMetrics, false⟩

/-- BinanceWebSocket.handle_message on one trade frame. -/
def handleMessage (pairs : List Symb) (threshold : ℚ) (s : AggState) (t : Trade) : HMResult :=
  let i := t.windowStart
  if rollCheck s.currentInterval i then
    accumulate threshold t
      (s.currentInterval.map (fun c => processAndStore c s.txns s.bigTxns))
      (rolledState pairs i)
  else
    accumulate threshold t none s

/-- Feed a list of trade frames through handle_message, collecting the
flushes emitted along the way. -/
def runTrades (pairs : List Symb) (threshold : ℚ) : AggState → List Trade → AggState × List Flush
| s, [] => (s, [])
| s, t :: ts =>
  let r := handleMessage pairs threshold s t
  let rest := runTrades pairs threshold r.state ts
  (rest.1, r.flush.toList ++ rest.2)

/-- BinanceWebSocket.close: if self.transactions is a nonempty dict, run
process_and_store_data once more.  When current_interval is still None the
call fails on None.replace inside its own try/except and emits nothing. -/
def closeEmits (s : AggState) : List Flush :=
  if s.txns = [] then []
  else
    match s.currentInterval with
    | none => []
    | some c => [processAndStore c s.txns s.bigTxns]

/-- All flushes of a complete run: process every trade, then close. -/
def allFlushes (pairs : List Symb) (threshold : ℚ) (trace : List Trade) : List Flush :=
  let r := runTrades pairs threshold initState trace
  r.2 ++ closeEmits r.1

def allBigDocs (pairs : List Symb) (threshold : ℚ) (trace : List Trade) : List BigDoc :=
  (allFlushes pairs threshold trace).flatMap Flush.bigs

/-- The document image of a trade in the big-transaction collection. -/
def Trade.toBigDoc (t : Trade) : BigDoc :=
  { timestampMs := t.timestampMs
    symbol := t.symbol
    side := t.side
    price := t.price
    quantity := t.quantity
    value := t.value
    source := "binance"
    baseCurrency := baseOf t.symbol
    quoteCurrency := quoteOf t.symbol }

/-
Connection supervisor: BinanceWebSocket.connect.

The transport is abstracted as a predicate on attempt indices: fails n = true
means the n-th connection attempt (connect / subscribe / first receive) ends
in one of the retryable exceptions (ConnectionClosed, WebSocketException,
asyncio.TimeoutError).  fails n = false means the attempt reaches the
streaming receive loop; for the purposes of the supervisor model the run
stops there, recording the retry counters at streaming entry.  The separate
catch-all branch for unexpected exception types (which also returns) is not
reachable under this transport model.
-/

inductive ConnOutcome
/-- The attempt succeeded and the receive loop was entered; the arguments
record retry_count and retry_delay as reset on successful connection. -/
| streaming (retryCount : ℕ) (retryDelay : ℕ)
/-- connect printed a message and returned None (the `return` after the
max-retries check, or falling out of the while loop). -/
| returnedNormally
/-- Modelled from the spec: the FatalExhaustionError that section 7 of the
spec expects to propagate to the process boundary.  The implementation in
src/src/binance/transactions.py has no raise path out of connect, so no run
of the embedded code produces this outcome; the constructor exists only so
the spec's expectation can be stated and compared. -/
| raisedFatal
deriving DecidableEq

structure ConnResult where
  attempts : ℕ
  sleeps : List ℕ
  outcome : ConnOutcome
deriving DecidableEq

/-- The while retry_count < max_retries loop of connect.  gas is
max_retries - retry_count (the loop guard), aIx counts attempts made so far,
sleeps the backoff sleeps performed so far, d the current retry_delay.
On failure retry_count is incremented; if it reaches max_retries the
function returns (no sleep), otherwise it sleeps retry_delay seconds and
doubles the delay capped at maxD.  On success retry_count and retry_delay
are reset to 0 and the initial delay. -/
def connectLoop (fails : ℕ → Bool) (maxD : ℕ) (initD : ℕ) :
    ℕ → ℕ → List ℕ → ℕ → ConnResult
| 0, aIx, sleeps, _ => ⟨aIx, sleeps, ConnOutcome.returnedNormally⟩
| gas + 1, aIx, sleeps, d =>
  if fails aIx then
    if gas = 0 then ⟨aIx + 1, sleeps, ConnOutcome.returnedNormally⟩
    else connectLoop fails maxD initD gas (aIx + 1) (sleeps ++ [d]) (min (d * 2) maxD)
  else ⟨aIx + 1, sleeps, ConnOutcome.streaming 0 initD⟩

/-- BinanceWebSocket.connect with retry_count = 0 and
retry_delay = initial_retry_delay. -/
def connectSim (fails : ℕ → Bool) (maxRetries initD maxD : ℕ) : ConnResult :=
  connectLoop fails maxD initD maxRetries 0 [] initD

/-
Sink dispatch: BinanceWebSocket.bulk_insert (and the structurally identical
bulk_insert_big_transactions).  bulkOk tells whether insert_many succeeds;
singleOk tells, per document, whether the fallback insert_one succeeds.
-/

inductive SinkOutcome (α : Type)
/-- insert_many succeeded; its result is returned. -/
| bulkSucceeded
/-- insert_many raised; the except branch inserted documents one by one,
recording for each document whether its insert_one succeeded (a failure is
caught, logged and the loop continues).  The function then returns None. -/
| fellBack (results : List (α × Bool))
deriving DecidableEq

/-- The fallback loop: for doc in documents, try insert_one, on exception
log and continue with the next document. -/
def singleInsertLoop {α : Type} (singleOk : α → Bool) : List α → List (α × Bool)
| [] => []
| d :: ds => (d, singleOk d) :: singleInsertLoop singleOk ds

/-- BinanceWebSocket.bulk_insert.  The result is an Except so that a raised
exception could be expressed; every branch of the source catches its
exceptions, so the code always produces an ok value. -/
def bulkInsert {α : Type} (bulkOk : Bool) (singleOk : α → Bool) (docs : List α) :
    Except String (SinkOutcome α) :=
  if bulkOk then Except.ok SinkOutcome.bulkSucceeded
  else Except.ok (SinkOutcome.fellBack (singleInsertLoop singleOk docs))

/-
Shutdown: the teardown of main.  connect returns only after the
`async with websockets.connect(...)` block has been exited, so the websocket
transport is closed by the time connect returns; then the finally block runs
binance_ws.close() (which flushes the open window through
process_and_store_data) and finally mongo_helper.close_connection().
-/

inductive ShutdownEv
| transportClosed
| statsEmitted (d : StatsDoc)
| bigEmitted (d : BigDoc)
| storageClosed
deriving DecidableEq

def flushEvents (f : Flush) : List ShutdownEv :=
  f.stats.map ShutdownEv.statsEmitted ++ f.bigs.map ShutdownEv.bigEmitted

/-- The ordered observable events of main's teardown, starting from the
aggregator state s at the moment connect returns. -/
def mainShutdownEvents (s : AggState) : List ShutdownEv :=
  [ShutdownEv.transportClosed] ++ (closeEmits s).flatMap flushEvents ++ [ShutdownEv.storageClosed]

/-
Transcriptions of claim-side notions (predicates the claims quantify with;
these restate the claims' words, not the source, and are only used in claim
statements).
-/

/-- Modelled from the spec: windowStartUtc as the event time truncated to a
configured window size w (in seconds, applied to a timestamp in seconds). -/
def truncToWindow (tSec w : ℕ) : ℕ := tSec / w * w

def nondecB : List ℕ → Bool
| [] => true
| [_] => true
| a :: b :: r => decide (a ≤ b) && nondecB (b :: r)

/-- The windowStart values of the trades of one symbol, in arrival order. -/
def winsOf (trace : List Trade) (sym : Symb) : List ℕ :=
  (trace.filter (fun t => decide (t.symbol = sym))).map Trade.windowStart

/-- The claim's hypothesis for C4: windowStart monotonically non-decreasing
separately for each configured symbol. -/
def perSymbolMonotone (pairs : List Symb) (trace : List Trade) : Bool :=
  pairs.all (fun p => nondecB (winsOf trace p))

/-- windowStart non-decreasing across the whole arrival sequence. -/
def globallyMonotone (trace : List Trade) : Bool :=
  nondecB (trace.map Trade.windowStart)

/-- buy-side count plus sell-side count of an emitted document (an absent
side counts 0). -/
def docCount (d : StatsDoc) : ℕ :=
  (d.buy.map SideAgg.count).getD 0 + (d.sell.map SideAgg.count).getD 0

/-- Number of trades of a symbol whose truncated event time falls in the
window starting at w. -/
def tradesInWindow (trace : List Trade) (sym : Symb) (w : ℕ) : ℕ :=
  (trace.filter (fun t => decide (t.symbol = sym) && decide (t.windowStart = w))).length

def symCount (trace : List Trade) (sym : Symb) : ℕ :=
  (trace.filter (fun t => decide (t.symbol = sym))).length

/-- The claim's conclusion for C4: every emitted window record counts exactly
the processed trades of its symbol whose truncated event time falls in it. -/
@[reducible] def countsMatch (pairs : List Symb) (threshold : ℚ) (trace : List Trade) : Prop :=
  ∀ f ∈ allFlushes pairs threshold trace, ∀ d ∈ f.stats,
    docCount d = tradesInWindow trace d.symbol d.timestamp

def isEmit : ShutdownEv → Bool
| ShutdownEv.statsEmitted _ => true
| ShutdownEv.bigEmitted _ => true
| _ => false

def isRelease : ShutdownEv → Bool
| ShutdownEv.transportClosed => true
| ShutdownEv.storageClosed => true
| _ => false

/-- Every record emission in the event list occurs before every resource
release: once a release event has happened, no emission follows. -/
def emitsBeforeReleases : List ShutdownEv → Bool
| [] => true
| e :: r =>
  if isRelease e then r.all (fun x => !(isEmit x)) && emitsBeforeReleases r
  else emitsBeforeReleases r

/-- A state invariant of the source: once current_interval has been set,
both dictionaries were re-created with self.pairs as their key set. -/
@[reducible] def goodState (pairs : List Symb) (s : AggState) : Prop :=
  s.currentInterval.isSome = true → keysOf s.txns = pairs ∧ keysOf s.bigTxns = pairs

/- Helper lemmas about the association-list dictionaries. -/

theorem pmFind_pmInit {α : Type} (pairs : List Symb) (p : Symb) :
    pmFind (pmInit (α := α) pairs) p = if p ∈ pairs then some emptySides else none := by
  induction pairs with
  | nil => simp [pmInit, pmFind]
  | cons q qs ih =>
    by_cases h : q = p
    · subst h
      simp [pmInit, pmFind]
    · simp [pmInit, pmFind, h, List.mem_cons, Ne.symm h] at ih ⊢
      simpa [pmInit] using ih

theorem pmFind_pmUpdate {α : Type} (m : PairMap α) (p q : Symb) (f : SideLists α → SideLists α) :
    pmFind (pmUpdate m p f) q = if p = q then (pmFind m q).map f else pmFind m q := by
  induction m with
  | nil => simp [pmUpdate, pmFind]
  | cons kv rest ih =>
    obtain ⟨k, v⟩ := kv
    by_cases hkp : k = p
    · subst hkp
      by_cases hkq : k = q
      · subst hkq
        simp [pmUpdate, pmFind]
      · simp [pmUpdate, pmFind, hkq, if_neg hkq, ih]
    · by_cases hkq : k = q
      · subst hkq
        have hpq : p ≠ k := fun h => hkp h.symm
        simp [pmUpdate, pmFind, hkp, hpq]
      · simp [pmUpdate, pmFind, hkp, hkq, ih]

theorem keysOf_pmUpdate {α : Type} (m : PairMap α) (p : Symb) (f : SideLists α → SideLists α) :
    keysOf (pmUpdate m p f) = keysOf m := by
  induction m with
  | nil => simp [pmUpdate]
  | cons kv rest ih =>
    obtain ⟨k, v⟩ := kv
    by_cases h : k = p
    · simp [pmUpdate, keysOf, h]
    · simp only [pmUpdate, if_neg h, keysOf, List.map_cons]
      simpa [keysOf] using ih

theorem keysOf_pmInit {α : Type} (pairs : List Symb) :
    keysOf (pmInit (α := α) pairs) = pairs := by
  induction pairs with
  | nil => rfl
  | cons q qs ih => simpa [pmInit, keysOf] using ih

theorem pmFind_isSome_of_mem_keys {α : Type} (m : PairMap α) (p : Symb)
    (h : p ∈ keysOf m) : ∃ sides, pmFind m p = some sides := by
  induction m with
  | nil => simp [keysOf] at h
  | cons kv rest ih =>
    obtain ⟨k, v⟩ := kv
    by_cases hk : k = p
    · exact ⟨v, by simp [pmFind, hk]⟩
    · have : p ∈ keysOf rest := by
        simpa [keysOf, Ne.symm hk] using h
      obtain ⟨sides, hs⟩ := ih this
      exact ⟨sides, by simp [pmFind, hk, hs]⟩

theorem pmFind_none_of_not_mem_keys {α : Type} (m : PairMap α) (p : Symb)
    (h : p ∉ keysOf m) : pmFind m p = none := by
  induction m with
  | nil => rfl
  | cons kv rest ih =>
    obtain ⟨k, v⟩ := kv
    have hcons : keysOf ((k, v) :: rest) = k :: keysOf rest := rfl
    rw [hcons] at h
    have h1 : ¬k = p := fun he => h (by simp [he])
    have h2 : p ∉ keysOf rest := fun hx => h (List.mem_cons_of_mem _ hx)
    simp [pmFind, h1, ih h2]

theorem pmFind_of_mem_nodup {α : Type} {m : PairMap α} {p : Symb} {sides : SideLists α}
    (hnd : (keysOf m).Nodup) (hmem : (p, sides) ∈ m) : pmFind m p = some sides := by
  induction m with
  | nil => simp at hmem
  | cons kv rest ih =>
    obtain ⟨k, v⟩ := kv
    simp [keysOf, List.nodup_cons] at hnd
    rcases List.mem_cons.mp hmem with h | h
    · have hk : k = p := (Prod.mk.injEq k v p sides).mp h.symm |>.1
      have hv : v = sides := (Prod.mk.injEq k v p sides).mp h.symm |>.2
      simp [pmFind, hk, hv]
    · have hp : p ∈ keysOf rest := by
        simpa [keysOf] using List.mem_map_of_mem Prod.fst h
      have hk : ¬k = p := by
        intro he
        subst he
        exact absurd hp (by simpa [keysOf] using hnd.1)
      simp [pmFind, hk, ih hnd.2 h]

/- Connection supervisor lemmas. -/

theorem connectLoop_allFail (maxD initD : ℕ) :
    ∀ (gas aIx : ℕ) (sleeps : List ℕ) (d : ℕ),
      (connectLoop (fun _ => true) maxD initD gas aIx sleeps d).attempts = aIx + gas ∧
      (connectLoop (fun _ => true) maxD initD gas aIx sleeps d).outcome =
        ConnOutcome.returnedNormally := by
  intro gas
  induction gas with
  | zero => intro aIx sleeps d; simp [connectLoop]
  | succ g ih =>
    intro aIx sleeps d
    by_cases hg : g = 0
    · subst hg
      simp [connectLoop]
    · have h := ih (aIx + 1) (sleeps ++ [d]) (min (d * 2) maxD)
      have hstep : connectLoop (fun _ => true) maxD initD (g + 1) aIx sleeps d =
          connectLoop (fun _ => true) maxD initD g (aIx + 1) (sleeps ++ [d]) (min (d * 2) maxD) := by
        simp [connectLoop, hg]
      refine ⟨?_, ?_⟩
      · rw [hstep, h.1]
        omega
      · rw [hstep]
        exact h.2

theorem min_double (a m : ℕ) : min (min a m * 2) m = min (a * 2) m := by
  rcases le_total a m with h | h
  · rw [Nat.min_eq_left h]
  · rw [Nat.min_eq_right h, Nat.min_eq_right (by omega : m ≤ m * 2),
        Nat.min_eq_right (by omega : m ≤ a * 2)]

theorem connectLoop_failsThenSucceeds (k m i : ℕ) :
    ∀ (rem gas aIx : ℕ) (sleeps : List ℕ),
      aIx + rem = k → rem < gas →
      connectLoop (fun n => decide (n < k)) m i gas aIx sleeps (min (i * 2 ^ aIx) m) =
        ⟨k + 1,
         sleeps ++ (List.range' aIx rem).map (fun j => min (i * 2 ^ j) m),
         ConnOutcome.streaming 0 i⟩ := by
  intro rem
  induction rem with
  | zero =>
    intro gas aIx sleeps hsum hgas
    obtain ⟨g, rfl⟩ : ∃ g, gas = g + 1 := ⟨gas - 1, by omega⟩
    have haIx : aIx = k := by omega
    subst haIx
    simp [connectLoop]
  | succ r ih =>
    intro gas aIx sleeps hsum hgas
    obtain ⟨g, rfl⟩ : ∃ g, gas = g + 1 := ⟨gas - 1, by omega⟩
    have hfail : aIx < k := by omega
    have hg : g ≠ 0 := by omega
    have hrec := ih g (aIx + 1) (sleeps ++ [min (i * 2 ^ aIx) m]) (by omega) (by omega)
    have hd : min (min (i * 2 ^ aIx) m * 2) m = min (i * 2 ^ (aIx + 1)) m := by
      rw [min_double]
      congr 1
      ring
    simp only [connectLoop, decide_eq_true_eq, if_pos hfail, hg, if_neg hg, if_false, hd, hrec]
    congr 1
    rw [List.range'_succ, List.map_cons, List.append_assoc]
    rfl

/-- Claim C2 as stated.  The narrow point it gets wrong: with a transport
that fails every attempt, connect (with its configured max_retries = 10,
initial_retry_delay = 5, max_retry_delay = 60) makes exactly 10 attempts and
then RETURNS NONE after printing, rather than raising any exception; no
FatalExhaustionError reaches the process boundary, and main's finally block
then shuts down with exit status 0. -/
theorem c2_exhaustion_counterexample :
    (connectSim (fun _ => true) 10 5 60).attempts = 10 ∧
    (connectSim (fun _ => true) 10 5 60).outcome = ConnOutcome.returnedNormally ∧
    (connectSim (fun _ => true) 10 5 60).outcome ≠ ConnOutcome.raisedFatal := by
  refine ⟨?_, ?_, ?_⟩ <;> decide

/-- Claim C2, amended: given a transport that fails on every connection
attempt, the supervisor makes exactly maxRetries attempts and performs no
further attempts afterwards; it then returns normally (after printing an
error message), so no FatalExhaustionError — indeed no exception at all —
propagates to the process boundary. -/
theorem c2_exhaustion_amended (maxRetries initD maxD : ℕ) :
    (connectSim (fun _ => true) maxRetries initD maxD).attempts = maxRetries ∧
    (connectSim (fun _ => true) maxRetries initD maxD).outcome =
      ConnOutcome.returnedNormally := by
  have := connectLoop_allFail maxD initD maxRetries 0 [] initD
  simpa [connectSim] using this

/-- Claim C7: if the transport fails exactly k < maxRetries consecutive
attempts and then succeeds, the supervisor reaches the streaming state with
retry_count reset to 0 and retry_delay reset to the initial delay, having
made exactly k+1 attempts, and the backoff sleeps are exactly
min(initialDelay * 2^j, maxDelay) for j = 0..k-1, so the total time slept is
their sum.  (The hypothesis initD ≤ maxD holds for the configured values
5 ≤ 60.) -/
theorem c7_reconnect_backoff (k maxRetries initD maxD : ℕ)
    (hk : k < maxRetries) (him : initD ≤ maxD) :
    (connectSim (fun n => decide (n < k)) maxRetries initD maxD).outcome =
      ConnOutcome.streaming 0 initD ∧
    (connectSim (fun n => decide (n < k)) maxRetries initD maxD).attempts = k + 1 ∧
    (connectSim (fun n => decide (n < k)) maxRetries initD maxD).sleeps =
      (List.range k).map (fun j => min (initD * 2 ^ j) maxD) ∧
    ((connectSim (fun n => decide (n < k)) maxRetries initD maxD).sleeps).sum =
      ((List.range k).map (fun j => min (initD * 2 ^ j) maxD)).sum := by
  have h := connectLoop_failsThenSucceeds k maxD initD k maxRetries 0 [] (by omega) hk
  have hstart : min (initD * 2 ^ 0) maxD = initD := by
    simpa using Nat.min_eq_left him
  rw [hstart] at h
  have hres : connectSim (fun n => decide (n < k)) maxRetries initD maxD =
      ⟨k + 1, (List.range' 0 k).map (fun j => min (initD * 2 ^ j) maxD),
       ConnOutcome.streaming 0 initD⟩ := by
    simpa [connectSim] using h
  rw [hres, List.range_eq_range']
  exact ⟨rfl, rfl, rfl, rfl⟩

/-- Witness for c7_reconnect_backoff at k = 3, the configured
maxRetries = 10, initialDelay = 5, maxDelay = 60: streaming is reached after
4 attempts with sleeps [5, 10, 20] totalling 35 seconds. -/
theorem c7_reconnect_backoff_witness :
    (3 < 10 ∧ 5 ≤ 60) ∧
    (connectSim (fun n => decide (n < 3)) 10 5 60).outcome = ConnOutcome.streaming 0 5 ∧
    (connectSim (fun n => decide (n < 3)) 10 5 60).attempts = 3 + 1 ∧
    (connectSim (fun n => decide (n < 3)) 10 5 60).sleeps =
      (List.range 3).map (fun j => min (5 * 2 ^ j) 60) ∧
    ((connectSim (fun n => decide (n < 3)) 10 5 60).sleeps).sum =
      ((List.range 3).map (fun j => min (5 * 2 ^ j) 60)).sum :=
  ⟨⟨by decide, by decide⟩, c7_reconnect_backoff 3 10 5 60 (by decide) (by decide)⟩

/- Sink dispatch lemmas. -/

theorem singleInsertLoop_fsts {α : Type} (singleOk : α → Bool) (docs : List α) :
    (singleInsertLoop singleOk docs).map Prod.fst = docs := by
  induction docs with
  | nil => rfl
  | cons d ds ih => simp [singleInsertLoop, ih]

/-- Claim C8: if the bulk write fails, the fallback inserts every record of
the batch exactly once, one at a time and in order, regardless of which
individual inserts fail (a failing record is recorded as failed and the loop
continues, so failures are isolated per record); and no call of bulk_insert
— whatever the bulk or single outcomes — produces an exception: every run
returns an ok value. -/
theorem c8_sink_fallback {α : Type} (singleOk : α → Bool) (docs : List α) :
    bulkInsert false singleOk docs =
      Except.ok (SinkOutcome.fellBack (singleInsertLoop singleOk docs)) ∧
    (singleInsertLoop singleOk docs).map Prod.fst = docs ∧
    (∀ bulkOk : Bool, ∃ r, bulkInsert bulkOk singleOk docs = Except.ok r) := by
  refine ⟨rfl, singleInsertLoop_fsts singleOk docs, ?_⟩
  intro bulkOk
  cases bulkOk
  · exact ⟨SinkOutcome.fellBack (singleInsertLoop singleOk docs), rfl⟩
  · exact ⟨SinkOutcome.bulkSucceeded, rfl⟩

/- handle_message branch lemmas. -/

theorem accumulate_flush (threshold : ℚ) (t : Trade) (fl : Option Flush) (s1 : AggState) :
    (accumulate threshold t fl s1).flush = fl := by
  unfold accumulate
  cases pmFind s1.txns t.symbol
  · rfl
  · by_cases h : threshold ≤ t.value <;> simp [h]

theorem accumulate_found (threshold : ℚ) (t : Trade) (fl : Option Flush) (s1 : AggState)
    (d : SideLists TxEntry) (h : pmFind s1.txns t.symbol = some d) :
    (accumulate threshold t fl s1).state.currentInterval = s1.currentInterval ∧
    (accumulate threshold t fl s1).state.txns =
      pmUpdate s1.txns t.symbol (fun l => l.append1 t.side t.toEntry) ∧
    (accumulate threshold t fl s1).keyError = false := by
  unfold accumulate
  rw [h]
  by_cases hbig : threshold ≤ t.value <;> simp [hbig]

theorem accumulate_missing (threshold : ℚ) (t : Trade) (fl : Option Flush) (s1 : AggState)
    (h : pmFind s1.txns t.symbol = none) :
    accumulate threshold t fl s1 = ⟨s1, fl, [], true⟩ := by
  unfold accumulate
  rw [h]

/-- The side list a trade lands in: self.transactions[p][side], read back. -/
def sideAt (m : PairMap TxEntry) (p : Symb) (sd : Side) : List TxEntry :=
  ((pmFind m p).getD emptySides).get sd

theorem sideAt_pmUpdate_self (m : PairMap TxEntry) (p : Symb) (sd : Side) (e : TxEntry)
    (d : SideLists TxEntry) (h : pmFind m p = some d) :
    sideAt (pmUpdate m p (fun l => l.append1 sd e)) p sd = sideAt m p sd ++ [e] := by
  unfold sideAt
  rw [pmFind_pmUpdate, if_pos rfl, h]
  cases sd <;> simp [SideLists.append1, SideLists.get]

theorem sideAt_pmUpdate_other (m : PairMap TxEntry) (p q : Symb) (sd sd' : Side) (e : TxEntry)
    (h : ¬(q = p ∧ sd' = sd)) :
    sideAt (pmUpdate m p (fun l => l.append1 sd e)) q sd' = sideAt m q sd' := by
  unfold sideAt
  rw [pmFind_pmUpdate]
  by_cases hq : p = q
  · subst hq
    have hsd : ¬sd' = sd := fun hh => h ⟨rfl, hh⟩
    cases hfind : pmFind m p
    · simp
    · cases sd <;> cases sd' <;> simp_all [SideLists.append1, SideLists.get]
  · rw [if_neg hq]

theorem sideAt_pmInit (pairs : List Symb) (p : Symb) (sd : Side) :
    sideAt (pmInit pairs) p sd = [] := by
  unfold sideAt
  rw [pmFind_pmInit]
  by_cases h : p ∈ pairs <;> cases sd <;> simp [h, emptySides, SideLists.get]

/-- The window-advance policy of handle_message on one trade of a configured
symbol, relative to the state before the call: with no open window, or with
the trade's windowStart strictly beyond the open window's start, the open
window (if any) is closed into a flush and a fresh window holding just this
trade is opened; with windowStart at or before the open window's start the
trade is appended to the still-open current window, nothing is flushed, and
no other cell of the window changes. -/
def c1Spec (pairs : List Symb) (threshold : ℚ) (s : AggState) (t : Trade) : Prop :=
  let r := handleMessage pairs threshold s t
  let i := t.windowStart
  (s.currentInterval = none →
      r.flush = none ∧ r.state.currentInterval = some i ∧
      sideAt r.state.txns t.symbol t.side = [t.toEntry]) ∧
  (∀ c, s.currentInterval = some c → c < i →
      r.flush = some (processAndStore c s.txns s.bigTxns) ∧
      r.state.currentInterval = some i ∧
      sideAt r.state.txns t.symbol t.side = [t.toEntry]) ∧
  (∀ c, s.currentInterval = some c → i ≤ c →
      r.flush = none ∧ r.state.currentInterval = some c ∧
      sideAt r.state.txns t.symbol t.side = sideAt s.txns t.symbol t.side ++ [t.toEntry] ∧
      ∀ p sd, ¬(p = t.symbol ∧ sd = t.side) → sideAt r.state.txns p sd = sideAt s.txns p sd)

theorem handleMessage_roll (pairs : List Symb) (threshold : ℚ) (s : AggState) (t : Trade)
    (h : rollCheck s.currentInterval t.windowStart = true) :
    handleMessage pairs threshold s t =
      accumulate threshold t
        (s.currentInterval.map (fun c => processAndStore c s.txns s.bigTxns))
        (rolledState pairs t.windowStart) := by
  unfold handleMessage
  rw [if_pos h]

theorem handleMessage_noRoll (pairs : List Symb) (threshold : ℚ) (s : AggState) (t : Trade)
    (h : ¬rollCheck s.currentInterval t.windowStart = true) :
    handleMessage pairs threshold s t = accumulate threshold t none s := by
  unfold handleMessage
  rw [if_neg h]

theorem pmFind_rolledState (pairs : List Symb) (i : ℕ) (p : Symb) (hp : p ∈ pairs) :
    pmFind (rolledState pairs i).txns p = some emptySides := by
  show pmFind (pmInit pairs) p = some emptySides
  rw [pmFind_pmInit, if_pos hp]

/-- Claim C1: for every trade of a configured symbol, handle_message follows
the window-advance policy described by c1Spec — close-and-reopen exactly
when windowStart strictly exceeds the open window's start (or none is open),
and fold-into-current (never drop, never reopen a past window) otherwise.
The state hypothesis goodState records that the per-symbol dictionaries were
initialised over self.pairs, which holds in every reachable state with an
open window. -/
theorem c1_window_advance_policy (pairs : List Symb) (threshold : ℚ) (s : AggState) (t : Trade)
    (hsym : t.symbol ∈ pairs) (hgood : goodState pairs s) :
    c1Spec pairs threshold s t := by
  unfold c1Spec
  refine ⟨?_, ?_, ?_⟩
  · intro hnone
    have hroll : rollCheck s.currentInterval t.windowStart = true := by
      rw [hnone]; rfl
    rw [handleMessage_roll pairs threshold s t hroll]
    have hfind := pmFind_rolledState pairs t.windowStart t.symbol hsym
    have hacc := accumulate_found threshold t
      (s.currentInterval.map (fun c => processAndStore c s.txns s.bigTxns))
      (rolledState pairs t.windowStart) emptySides hfind
    refine ⟨by rw [accumulate_flush, hnone]; rfl, ?_, ?_⟩
    · rw [hacc.1]; rfl
    · rw [hacc.2.1]
      have := sideAt_pmUpdate_self (rolledState pairs t.windowStart).txns t.symbol t.side
        t.toEntry emptySides hfind
      rw [this]
      show sideAt (pmInit pairs) t.symbol t.side ++ [t.toEntry] = [t.toEntry]
      rw [sideAt_pmInit]
      rfl
  · intro c hc hlt
    have hroll : rollCheck s.currentInterval t.windowStart = true := by
      rw [hc]
      simpa [rollCheck] using hlt
    rw [handleMessage_roll pairs threshold s t hroll]
    have hfind := pmFind_rolledState pairs t.windowStart t.symbol hsym
    have hacc := accumulate_found threshold t
      (s.currentInterval.map (fun c => processAndStore c s.txns s.bigTxns))
      (rolledState pairs t.windowStart) emptySides hfind
    refine ⟨by rw [accumulate_flush, hc]; rfl, ?_, ?_⟩
    · rw [hacc.1]; rfl
    · rw [hacc.2.1]
      rw [sideAt_pmUpdate_self (rolledState pairs t.windowStart).txns t.symbol t.side
        t.toEntry emptySides hfind]
      show sideAt (pmInit pairs) t.symbol t.side ++ [t.toEntry] = [t.toEntry]
      rw [sideAt_pmInit]
      rfl
  · intro c hc hle
    have hroll : ¬rollCheck s.currentInterval t.windowStart = true := by
      rw [hc]
      simpa [rollCheck] using hle
    rw [handleMessage_noRoll pairs threshold s t hroll]
    have hkeys : keysOf s.txns = pairs := (hgood (by rw [hc]; rfl)).1
    obtain ⟨d, hd⟩ := pmFind_isSome_of_mem_keys s.txns t.symbol (hkeys ▸ hsym)
    have hacc := accumulate_found threshold t none s d hd
    refine ⟨accumulate_flush threshold t none s, by rw [hacc.1, hc], ?_, ?_⟩
    · rw [hacc.2.1]
      exact sideAt_pmUpdate_self s.txns t.symbol t.side t.toEntry d hd
    · intro p sd hne
      rw [hacc.2.1]
      exact sideAt_pmUpdate_other s.txns t.symbol p t.side sd t.toEntry hne

/-- Witness for c1_window_advance_policy: one BTCUSDT trade opens window 5;
a second trade of the same symbol with the same windowStart satisfies the
hypotheses, and the fold-into-current branch of c1Spec holds for it. -/
theorem c1_window_advance_policy_witness :
    ((⟨"BTCUSDT", 3, 1, 5500, true⟩ : Trade).symbol ∈ ["BTCUSDT"] ∧
      goodState ["BTCUSDT"]
        (handleMessage ["BTCUSDT"] 10000 initState ⟨"BTCUSDT", 2, 1, 5000, false⟩).state) ∧
    c1Spec ["BTCUSDT"] 10000
      (handleMessage ["BTCUSDT"] 10000 initState ⟨"BTCUSDT", 2, 1, 5000, false⟩).state
      ⟨"BTCUSDT", 3, 1, 5500, true⟩ :=
  ⟨⟨by decide, by decide⟩,
   c1_window_advance_policy ["BTCUSDT"] 10000
     (handleMessage ["BTCUSDT"] 10000 initState ⟨"BTCUSDT", 2, 1, 5000, false⟩).state
     ⟨"BTCUSDT", 3, 1, 5500, true⟩ (by decide) (by decide)⟩

/- min/max over the nonempty price lists. -/

theorem foldl_min_le_init (xs : List ℚ) : ∀ a : ℚ, xs.foldl min a ≤ a := by
  induction xs with
  | nil => intro a; simp
  | cons x xs ih =>
    intro a
    calc (x :: xs).foldl min a = xs.foldl min (min a x) := rfl
    _ ≤ min a x := ih (min a x)
    _ ≤ a := min_le_left a x

theorem foldl_min_le_mem (xs : List ℚ) : ∀ (a y : ℚ), y ∈ xs → xs.foldl min a ≤ y := by
  induction xs with
  | nil => intro a y hy; simp at hy
  | cons x xs ih =>
    intro a y hy
    rcases List.mem_cons.mp hy with h | h
    · subst h
      calc (y :: xs).foldl min a = xs.foldl min (min a y) := rfl
      _ ≤ min a y := foldl_min_le_init xs (min a y)
      _ ≤ y := min_le_right a y
    · exact ih (min a x) y h

theorem foldl_max_ge_init (xs : List ℚ) : ∀ a : ℚ, a ≤ xs.foldl max a := by
  induction xs with
  | nil => intro a; simp
  | cons x xs ih =>
    intro a
    calc a ≤ max a x := le_max_left a x
    _ ≤ xs.foldl max (max a x) := ih (max a x)
    _ = (x :: xs).foldl max a := rfl

theorem foldl_max_ge_mem (xs : List ℚ) : ∀ (a y : ℚ), y ∈ xs → y ≤ xs.foldl max a := by
  induction xs with
  | nil => intro a y hy; simp at hy
  | cons x xs ih =>
    intro a y hy
    rcases List.mem_cons.mp hy with h | h
    · subst h
      calc y ≤ max a y := le_max_right a y
      _ ≤ xs.foldl max (max a y) := foldl_max_ge_init xs (max a y)
      _ = (y :: xs).foldl max a := rfl
    · exact ih (max a x) y h

theorem listMin_le (xs : List ℚ) (y : ℚ) (h : y ∈ xs) : listMin xs ≤ y := by
  cases xs with
  | nil => simp at h
  | cons x rest =>
    rcases List.mem_cons.mp h with h1 | h1
    · subst h1
      exact foldl_min_le_init rest y
    · exact foldl_min_le_mem rest x y h1

theorem le_listMax (xs : List ℚ) (y : ℚ) (h : y ∈ xs) : y ≤ listMax xs := by
  cases xs with
  | nil => simp at h
  | cons x rest =>
    rcases List.mem_cons.mp h with h1 | h1
    · subst h1
      exact foldl_max_ge_init rest y
    · exact foldl_max_ge_mem rest x y h1

/-- Claim C5: for a side aggregate produced for a closing window
(count > 0 since the side list was nonempty): the emitted average price is
exactly totalValue / totalQuantity, totalQuantity and totalValue are the
sums of the contributing trades' quantities and price*quantity, count is the
number of contributing trades, and every contributing trade's price lies
between minPrice and maxPrice.  When a side has no trades, mkSideAgg yields
none — the document carries no numeric fields for that side and no division
is performed — and the emitted documents take both their sides from
mkSideAgg. -/
theorem c5_side_aggregate_invariants (l : List TxEntry) (agg : SideAgg)
    (h : mkSideAgg l = some agg) :
    agg.avgPrice = agg.totalValue / agg.totalQuantity ∧
    agg.totalQuantity = sumQty l ∧
    agg.totalValue = sumVal l ∧
    agg.count = l.length ∧
    (∀ e ∈ l, agg.minPrice ≤ e.price ∧ e.price ≤ agg.maxPrice) ∧
    mkSideAgg ([] : List TxEntry) = none ∧
    (∀ (c : ℕ) (sym : Symb) (d : SideLists TxEntry),
      (mkStatsDoc c sym d).buy = mkSideAgg d.buy ∧
      (mkStatsDoc c sym d).sell = mkSideAgg d.sell) := by
  by_cases hl : l = []
  · subst hl
    simp [mkSideAgg] at h
  · rw [mkSideAgg, if_neg hl] at h
    have hagg := (Option.some.injEq _ _).mp h
    subst hagg
    refine ⟨rfl, rfl, rfl, rfl, ?_, rfl, fun c sym d => ⟨rfl, rfl⟩⟩
    intro e he
    constructor
    · exact listMin_le (l.map (fun e => e.price)) e.price (List.mem_map_of_mem _ he)
    · exact le_listMax (l.map (fun e => e.price)) e.price (List.mem_map_of_mem _ he)

/-- Witness for c5_side_aggregate_invariants on a two-trade side list. -/
theorem c5_side_aggregate_invariants_witness :
    mkSideAgg [⟨2, 3, "BTC", "USDT"⟩, ⟨4, 1, "BTC", "USDT"⟩] =
      some ⟨2, 4, 10, 2, 4, 5 / 2⟩ ∧
    ((⟨2, 4, 10, 2, 4, 5 / 2⟩ : SideAgg).avgPrice = 10 / 4 ∧
      (∀ e ∈ [(⟨2, 3, "BTC", "USDT"⟩ : TxEntry), ⟨4, 1, "BTC", "USDT"⟩],
        (2 : ℚ) ≤ e.price ∧ e.price ≤ 4)) :=
  ⟨by decide,
   by
    have h := c5_side_aggregate_invariants [⟨2, 3, "BTC", "USDT"⟩, ⟨4, 1, "BTC", "USDT"⟩]
      ⟨2, 4, 10, 2, 4, 5 / 2⟩ (by decide)
    refine ⟨by rw [h.1], ?_⟩
    intro e he
    exact h.2.2.2.2.1 e he⟩

/-- Counterexample to claim C3: the code truncates the event time to whole
seconds regardless of the configured window size.  With the claim's
10-second window, trades at 00:00:03 and 00:00:07 should share the window
starting 00:00:00; the code instead assigns them windowStarts 3 and 7 —
different windows — and feeding exactly those two trades through
handle_message already closes and emits a window timestamped 3 before any
trade at or after 00:00:10 arrives. -/
theorem c3_truncation_counterexample :
    (⟨"BTCUSDT", 50000, 1 / 100, 3000, false⟩ : Trade).windowStart ≠ truncToWindow 3 10 ∧
    truncToWindow 3 10 = truncToWindow 7 10 ∧
    (⟨"BTCUSDT", 50000, 1 / 100, 3000, false⟩ : Trade).windowStart ≠
      (⟨"BTCUSDT", 50010, 3 / 10, 7000, true⟩ : Trade).windowStart ∧
    ((runTrades ["BTCUSDT"] 10000 initState
        [⟨"BTCUSDT", 50000, 1 / 100, 3000, false⟩,
         ⟨"BTCUSDT", 50010, 3 / 10, 7000, true⟩]).2.map
          (fun f => f.stats.map (fun d => d.timestamp))) = [[3]] := by
  refine ⟨by decide, by decide, by decide, by decide⟩

/-- Claim C3, amended: the aggregator computes every trade's window start as
its event time truncated to whole seconds — i.e. truncation to a fixed
1-second window, not to the configured window size (the interval_seconds
field is never read by the truncation).  In particular the spec's example
trades at 00:00:03, 00:00:07 and 00:00:12 occupy three distinct windows
starting at 3, 7 and 12 seconds. -/
theorem c3_truncation_amended :
    (∀ t : Trade, t.windowStart = truncToWindow (t.timestampMs / 1000) 1) ∧
    ((allFlushes ["BTCUSDT"] 10000
        [⟨"BTCUSDT", 50000, 1 / 100, 3000, false⟩,
         ⟨"BTCUSDT", 50010, 3 / 10, 7000, true⟩,
         ⟨"BTCUSDT", 50020, 1 / 100, 12000, false⟩]).map
          (fun f => f.stats.map (fun d => d.timestamp))) = [[3], [7], [12]] ∧
    (runTrades ["BTCUSDT"] 10000 initState
        [⟨"BTCUSDT", 50000, 1 / 100, 3000, false⟩,
         ⟨"BTCUSDT", 50010, 3 / 10, 7000, true⟩,
         ⟨"BTCUSDT", 50020, 1 / 100, 12000, false⟩]).1.currentInterval = some 12 := by
  refine ⟨?_, by decide, by decide⟩
  intro t
  simp [Trade.windowStart, truncToWindow]

/-- Counterexample to claim C10: a frame whose symbol is not in the
configured pairs list does not always leave the aggregator state unchanged.
Starting from the state with an open window at 5 s for pairs = [BTCUSDT], an
XXXUSDT trade at 7 s still advances the window: the open window is flushed,
current_interval moves to 7, and the dictionaries are re-created — all
before the lookup self.transactions[XXXUSDT] raises the KeyError that is
then caught and logged.  (No side aggregate, big transaction or metric is
touched, and no exception escapes, as the claim says.) -/
theorem c10_unknown_symbol_counterexample :
    (handleMessage ["BTCUSDT"] 10000
        (handleMessage ["BTCUSDT"] 10000 initState ⟨"BTCUSDT", 2, 1, 5000, false⟩).state
        ⟨"XXXUSDT", 1, 1, 7000, false⟩).keyError = true ∧
    (handleMessage ["BTCUSDT"] 10000
        (handleMessage ["BTCUSDT"] 10000 initState ⟨"BTCUSDT", 2, 1, 5000, false⟩).state
        ⟨"XXXUSDT", 1, 1, 7000, false⟩).state ≠
      (handleMessage ["BTCUSDT"] 10000 initState ⟨"BTCUSDT", 2, 1, 5000, false⟩).state ∧
    (handleMessage ["BTCUSDT"] 10000
        (handleMessage ["BTCUSDT"] 10000 initState ⟨"BTCUSDT", 2, 1, 5000, false⟩).state
        ⟨"XXXUSDT", 1, 1, 7000, false⟩).state.currentInterval = some 7 ∧
    (handleMessage ["BTCUSDT"] 10000
        (handleMessage ["BTCUSDT"] 10000 initState ⟨"BTCUSDT", 2, 1, 5000, false⟩).state
        ⟨"XXXUSDT", 1, 1, 7000, false⟩).flush.isSome = true := by
  refine ⟨by decide, by decide, by decide, by decide⟩

/-- What handle_message does with a frame whose symbol is not configured:
the KeyError is caught (keyError is recorded, nothing propagates), no metric
fires and nothing is appended anywhere; but the window-advance branch runs
first, so the state still rolls — and only when the frame's windowStart does
not exceed the open window is the state fully unchanged. -/
def c10Spec (pairs : List Symb) (threshold : ℚ) (s : AggState) (t : Trade) : Prop :=
  let r := handleMessage pairs threshold s t
  r.keyError = true ∧ r.metrics = [] ∧
  (s.currentInterval = none →
      r.state = rolledState pairs t.windowStart ∧ r.flush = none) ∧
  (∀ c, s.currentInterval = some c → c < t.windowStart →
      r.state = rolledState pairs t.windowStart ∧
      r.flush = some (processAndStore c s.txns s.bigTxns)) ∧
  (∀ c, s.currentInterval = some c → t.windowStart ≤ c →
      r.state = s ∧ r.flush = none)

/-- Claim C10, amended: for a frame whose symbol is not in the configured
pairs list, handle_message raises nothing to the caller (the KeyError is
caught and the frame is logged and dropped), the trade is added to no side
aggregate and no big-transaction list, and no metric is incremented; however
the aggregator state is NOT always unchanged: if the frame's windowStart
exceeds the currently open window's start (or no window is open), the open
window is still closed/flushed and a fresh interval is opened before the
per-pair lookup fails.  Only when the frame's windowStart is at or before
the open window's start is the state left fully unchanged. -/
theorem c10_unknown_symbol_amended (pairs : List Symb) (threshold : ℚ) (s : AggState)
    (t : Trade) (hsym : t.symbol ∉ pairs) (hgood : goodState pairs s) :
    c10Spec pairs threshold s t := by
  have hmiss : pmFind (rolledState pairs t.windowStart).txns t.symbol = none := by
    show pmFind (pmInit pairs) t.symbol = none
    rw [pmFind_pmInit, if_neg hsym]
  unfold c10Spec
  cases hcur : s.currentInterval with
  | none =>
    have hroll : rollCheck s.currentInterval t.windowStart = true := by rw [hcur]; rfl
    rw [handleMessage_roll pairs threshold s t hroll,
        accumulate_missing threshold t _ _ hmiss]
    exact ⟨rfl, rfl, fun _ => ⟨rfl, by rw [hcur]; rfl⟩,
      fun c hc => Option.noConfusion hc, fun c hc => Option.noConfusion hc⟩
  | some c =>
    by_cases hlt : c < t.windowStart
    · have hroll : rollCheck s.currentInterval t.windowStart = true := by
        rw [hcur]; simpa [rollCheck] using hlt
      rw [handleMessage_roll pairs threshold s t hroll,
          accumulate_missing threshold t _ _ hmiss]
      refine ⟨rfl, rfl, fun h => Option.noConfusion h, ?_, ?_⟩
      · intro c2 hc2 _
        have hcc : c2 = c := ((Option.some.injEq _ _).mp hc2).symm
        subst hcc
        exact ⟨rfl, by rw [hcur]; rfl⟩
      · intro c2 hc2 hle
        have hcc : c2 = c := ((Option.some.injEq _ _).mp hc2).symm
        subst hcc
        omega
    · have hroll : ¬rollCheck s.currentInterval t.windowStart = true := by
        rw [hcur]; simpa [rollCheck] using hlt
      have hkeys : keysOf s.txns = pairs := (hgood (by rw [hcur]; rfl)).1
      have hmiss2 : pmFind s.txns t.symbol = none :=
        pmFind_none_of_not_mem_keys s.txns t.symbol (hkeys ▸ hsym)
      rw [handleMessage_noRoll pairs threshold s t hroll,
          accumulate_missing threshold t _ _ hmiss2]
      refine ⟨rfl, rfl, fun h => Option.noConfusion h, ?_, fun _ _ _ => ⟨rfl, rfl⟩⟩
      intro c2 hc2 hlt2
      have hcc : c2 = c := ((Option.some.injEq _ _).mp hc2).symm
      subst hcc
      omega

/-- Witness for c10_unknown_symbol_amended: an unknown-symbol frame whose
windowStart equals the open window's start leaves the state unchanged. -/
theorem c10_unknown_symbol_amended_witness :
    ((⟨"XXXUSDT", 1, 1, 5500, false⟩ : Trade).symbol ∉ ["BTCUSDT"] ∧
      goodState ["BTCUSDT"]
        (handleMessage ["BTCUSDT"] 10000 initState ⟨"BTCUSDT", 2, 1, 5000, false⟩).state) ∧
    c10Spec ["BTCUSDT"] 10000
      (handleMessage ["BTCUSDT"] 10000 initState ⟨"BTCUSDT", 2, 1, 5000, false⟩).state
      ⟨"XXXUSDT", 1, 1, 5500, false⟩ :=
  ⟨⟨by decide, by decide⟩,
   c10_unknown_symbol_amended ["BTCUSDT"] 10000
     (handleMessage ["BTCUSDT"] 10000 initState ⟨"BTCUSDT", 2, 1, 5000, false⟩).state
     ⟨"XXXUSDT", 1, 1, 5500, false⟩ (by decide) (by decide)⟩

/-- Counterexample to claim C9: starting from the state with one open,
non-empty window (one BTCUSDT trade in window 5), the teardown of main emits
exactly one final window record, but not before the transport is released:
the websocket was already closed when connect returned, so the first
teardown event is the transport closure and the record emission follows
it. -/
theorem c9_shutdown_flush_counterexample :
    emitsBeforeReleases (mainShutdownEvents
      (handleMessage ["BTCUSDT"] 10000 initState ⟨"BTCUSDT", 2, 1, 5000, false⟩).state) =
      false ∧
    ((mainShutdownEvents
      (handleMessage ["BTCUSDT"] 10000 initState ⟨"BTCUSDT", 2, 1, 5000, false⟩).state).filter
        isEmit).length = 1 ∧
    (mainShutdownEvents
      (handleMessage ["BTCUSDT"] 10000 initState ⟨"BTCUSDT", 2, 1, 5000, false⟩).state).head? =
      some ShutdownEv.transportClosed := by
  refine ⟨by decide, by decide, by decide⟩

theorem statsDocs_single (c : ℕ) (txns : PairMap TxEntry) (sym : Symb)
    (sides : SideLists TxEntry) (hnd : (keysOf txns).Nodup) (hmem : (sym, sides) ∈ txns)
    (hne : ¬(sides.buy = [] ∧ sides.sell = []))
    (hothers : ∀ pr ∈ txns, pr.1 ≠ sym → pr.2.buy = [] ∧ pr.2.sell = []) :
    txns.filterMap (fun pr =>
      if pr.2.buy = [] ∧ pr.2.sell = [] then none else some (mkStatsDoc c pr.1 pr.2)) =
      [mkStatsDoc c sym sides] := by
  induction txns with
  | nil => simp at hmem
  | cons kv rest ih =>
    obtain ⟨k, v⟩ := kv
    simp only [keysOf, List.map_cons, List.nodup_cons] at hnd
    rcases List.mem_cons.mp hmem with h | h
    · have hk : k = sym := ((Prod.mk.injEq k v sym sides).mp h.symm).1
      have hv : v = sides := ((Prod.mk.injEq k v sym sides).mp h.symm).2
      subst hk
      subst hv
      rw [List.filterMap_cons]
      simp only [if_neg hne]
      have hrest : rest.filterMap (fun pr =>
          if pr.2.buy = [] ∧ pr.2.sell = [] then none
          else some (mkStatsDoc c pr.1 pr.2)) = [] := by
        rw [List.filterMap_eq_nil_iff]
        intro pr hpr
        have hpk : pr.1 ≠ k := by
          intro he
          exact hnd.1 (he ▸ (by simpa [keysOf] using List.mem_map_of_mem Prod.fst hpr))
        have := hothers pr (List.mem_cons_of_mem _ hpr) hpk
        simp [this]
      rw [hrest]
    · have hsymrest : sym ∈ keysOf rest := by
        simpa [keysOf] using List.mem_map_of_mem Prod.fst h
      have hk : k ≠ sym := by
        intro he
        exact hnd.1 (by simpa [keysOf, he] using hsymrest)
      have hkv := hothers (k, v) (List.mem_cons_self _ _) hk
      rw [List.filterMap_cons]
      simp only [if_pos hkv]
      exact ih hnd.2 h (fun pr hpr hp => hothers pr (List.mem_cons_of_mem _ hpr) hp)

/-- What the teardown of main does when exactly one window is open and
non-empty: close() emits exactly the one flush that process_and_store_data
produces, containing exactly one window record; that flush is the very flush
a window-advancing trade would have emitted (same close semantics); and the
teardown event order is transport closure, then the record emission, then
the storage closure. -/
def c9Spec (s : AggState) (c : ℕ) (sym : Symb) (sides : SideLists TxEntry) : Prop :=
  closeEmits s = [processAndStore c s.txns s.bigTxns] ∧
  (closeEmits s).flatMap Flush.stats = [mkStatsDoc c sym sides] ∧
  (∀ (pairs : List Symb) (threshold : ℚ) (t : Trade), c < t.windowStart →
      (handleMessage pairs threshold s t).flush = some (processAndStore c s.txns s.bigTxns)) ∧
  mainShutdownEvents s =
    ShutdownEv.transportClosed ::
      ((ShutdownEv.statsEmitted (mkStatsDoc c sym sides) ::
        (bigDump s.txns s.bigTxns).map ShutdownEv.bigEmitted) ++ [ShutdownEv.storageClosed])

/-- Claim C9, amended: shutting the pipeline down with exactly one open,
non-empty window emits exactly one final window record for it, with the same
close semantics as a close-on-window-advance, before the storage connection
is released; the transport, however, is already closed when the supervisor
loop exits, so the record is emitted after — not before — the transport
release. -/
theorem c9_shutdown_flush_amended (s : AggState) (c : ℕ) (sym : Symb)
    (sides : SideLists TxEntry) (hnd : (keysOf s.txns).Nodup)
    (hcur : s.currentInterval = some c) (hmem : (sym, sides) ∈ s.txns)
    (hne : ¬(sides.buy = [] ∧ sides.sell = []))
    (hothers : ∀ pr ∈ s.txns, pr.1 ≠ sym → pr.2.buy = [] ∧ pr.2.sell = []) :
    c9Spec s c sym sides := by
  have htxne : s.txns ≠ [] := List.ne_nil_of_mem hmem
  have hclose : closeEmits s = [processAndStore c s.txns s.bigTxns] := by
    unfold closeEmits
    rw [if_neg htxne, hcur]
  have hstats : (processAndStore c s.txns s.bigTxns).stats = [mkStatsDoc c sym sides] :=
    statsDocs_single c s.txns sym sides hnd hmem hne hothers
  refine ⟨hclose, ?_, ?_, ?_⟩
  · rw [hclose]
    simpa using hstats
  · intro pairs threshold t hlt
    have hroll : rollCheck s.currentInterval t.windowStart = true := by
      rw [hcur]; simpa [rollCheck] using hlt
    rw [handleMessage_roll pairs threshold s t hroll, accumulate_flush, hcur]
    rfl
  · unfold mainShutdownEvents
    rw [hclose]
    have hbigs : (processAndStore c s.txns s.bigTxns).bigs = bigDump s.txns s.bigTxns := rfl
    simp only [List.flatMap_cons, List.flatMap_nil, List.append_nil, flushEvents, hstats, hbigs]
    simp

/-- Witness for c9_shutdown_flush_amended: the state after one BTCUSDT trade
has exactly one open, non-empty window, and the teardown emits its record
between the transport and the storage closure. -/
theorem c9_shutdown_flush_amended_witness :
    (((keysOf (handleMessage ["BTCUSDT"] 10000 initState
          ⟨"BTCUSDT", 2, 1, 5000, false⟩).state.txns).Nodup ∧
      (handleMessage ["BTCUSDT"] 10000 initState
          ⟨"BTCUSDT", 2, 1, 5000, false⟩).state.currentInterval = some 5 ∧
      ("BTCUSDT", (⟨[⟨2, 1, "BTC", "USDT"⟩], []⟩ : SideLists TxEntry)) ∈
        (handleMessage ["BTCUSDT"] 10000 initState
          ⟨"BTCUSDT", 2, 1, 5000, false⟩).state.txns) ∧
      ¬((⟨[⟨2, 1, "BTC", "USDT"⟩], []⟩ : SideLists TxEntry).buy = [] ∧
        (⟨[⟨2, 1, "BTC", "USDT"⟩], []⟩ : SideLists TxEntry).sell = []) ∧
      (∀ pr ∈ (handleMessage ["BTCUSDT"] 10000 initState
          ⟨"BTCUSDT", 2, 1, 5000, false⟩).state.txns,
        pr.1 ≠ "BTCUSDT" → pr.2.buy = [] ∧ pr.2.sell = [])) ∧
    c9Spec (handleMessage ["BTCUSDT"] 10000 initState
      ⟨"BTCUSDT", 2, 1, 5000, false⟩).state 5 "BTCUSDT" ⟨[⟨2, 1, "BTC", "USDT"⟩], []⟩ :=
  ⟨⟨⟨by decide, by decide, by decide⟩, by decide, by decide⟩,
   c9_shutdown_flush_amended
     (handleMessage ["BTCUSDT"] 10000 initState ⟨"BTCUSDT", 2, 1, 5000, false⟩).state
     5 "BTCUSDT" ⟨[⟨2, 1, "BTC", "USDT"⟩], []⟩ (by decide) (by decide) (by decide) (by decide)
     (by decide)⟩

/- Counting helpers for the window-count conservation property. -/

theorem docCount_mkStatsDoc (c : ℕ) (p : Symb) (d : SideLists TxEntry) :
    docCount (mkStatsDoc c p d) = d.buy.length + d.sell.length := by
  unfold docCount mkStatsDoc mkSideAgg
  by_cases hb : d.buy = [] <;> by_cases hs : d.sell = [] <;> simp [hb, hs]

theorem mem_stats_processAndStore (c : ℕ) (txns : PairMap TxEntry) (bigs : PairMap BigEntry)
    (d : StatsDoc) (h : d ∈ (processAndStore c txns bigs).stats) :
    ∃ pr ∈ txns, ¬(pr.2.buy = [] ∧ pr.2.sell = []) ∧ d = mkStatsDoc c pr.1 pr.2 := by
  unfold processAndStore at h
  simp only [List.mem_filterMap] at h
  obtain ⟨pr, hpr, hd⟩ := h
  by_cases hcond : pr.2.buy = [] ∧ pr.2.sell = []
  · rw [if_pos hcond] at hd
    exact absurd hd (by simp)
  · rw [if_neg hcond] at hd
    exact ⟨pr, hpr, hcond, ((Option.some.injEq _ _).mp hd).symm⟩

theorem tradesInWindow_append (l1 l2 : List Trade) (p : Symb) (w : ℕ) :
    tradesInWindow (l1 ++ l2) p w = tradesInWindow l1 p w + tradesInWindow l2 p w := by
  unfold tradesInWindow
  rw [List.filter_append, List.length_append]

theorem tradesInWindow_eq_symCount (l : List Trade) (p : Symb) (w : ℕ)
    (h : ∀ t ∈ l, t.windowStart = w) : tradesInWindow l p w = symCount l p := by
  unfold tradesInWindow symCount
  congr 1
  apply List.filter_congr
  intro t ht
  simp [h t ht]

theorem tradesInWindow_eq_zero (l : List Trade) (p : Symb) (w : ℕ)
    (h : ∀ t ∈ l, t.windowStart ≠ w) : tradesInWindow l p w = 0 := by
  unfold tradesInWindow
  rw [List.length_eq_zero, List.filter_eq_nil_iff]
  intro t ht
  simp [h t ht]

theorem symCount_append_one (l : List Trade) (t : Trade) (p : Symb) :
    symCount (l ++ [t]) p = symCount l p + (if t.symbol = p then 1 else 0) := by
  unfold symCount
  rw [List.filter_append, List.length_append]
  by_cases h : t.symbol = p <;> simp [h]

theorem sidesLen_append1 {α : Type} (d : SideLists α) (sd : Side) (a : α) :
    (d.append1 sd a).buy.length + (d.append1 sd a).sell.length =
      d.buy.length + d.sell.length + 1 := by
  cases sd <;> simp [SideLists.append1] <;> omega

theorem nondecB_tail (a : ℕ) (l : List ℕ) (h : nondecB (a :: l) = true) :
    nondecB l = true := by
  cases l with
  | nil => rfl
  | cons b r =>
    unfold nondecB at h
    exact (Bool.and_eq_true_iff.mp h).2

theorem nondecB_head_le (a : ℕ) (l : List ℕ) (h : nondecB (a :: l) = true) :
    ∀ x ∈ l, a ≤ x := by
  induction l generalizing a with
  | nil => intro x hx; simp at hx
  | cons b r ih =>
    intro x hx
    unfold nondecB at h
    have hab : a ≤ b := by simpa using (Bool.and_eq_true_iff.mp h).1
    have hbr : nondecB (b :: r) = true := (Bool.and_eq_true_iff.mp h).2
    rcases List.mem_cons.mp hx with h1 | h1
    · exact h1 ▸ hab
    · exact le_trans hab (ih b hbr x h1)

theorem runTrades_nil (pairs : List Symb) (threshold : ℚ) (s : AggState) :
    runTrades pairs threshold s [] = (s, []) := rfl

theorem runTrades_cons (pairs : List Symb) (threshold : ℚ) (s : AggState) (t : Trade)
    (ts : List Trade) :
    runTrades pairs threshold s (t :: ts) =
      ((runTrades pairs threshold (handleMessage pairs threshold s t).state ts).1,
       (handleMessage pairs threshold s t).flush.toList ++
         (runTrades pairs threshold (handleMessage pairs threshold s t).state ts).2) := rfl

theorem processAndStore_doc_counts (c : ℕ) (txns : PairMap TxEntry) (bigs : PairMap BigEntry)
    (past : List Trade) (hnodup : (keysOf txns).Nodup)
    (hlen : ∀ p sides, pmFind txns p = some sides →
        sides.buy.length + sides.sell.length = symCount past p)
    (hpastw : ∀ t ∈ past, t.windowStart = c)
    (d : StatsDoc) (hd : d ∈ (processAndStore c txns bigs).stats) :
    docCount d = tradesInWindow past d.symbol d.timestamp ∧ d.timestamp = c := by
  obtain ⟨pr, hpr, hcond, hdeq⟩ := mem_stats_processAndStore c txns bigs d hd
  subst hdeq
  have hfind : pmFind txns pr.1 = some pr.2 :=
    pmFind_of_mem_nodup hnodup (show (pr.1, pr.2) ∈ txns by simpa using hpr)
  refine ⟨?_, rfl⟩
  rw [docCount_mkStatsDoc]
  show pr.2.buy.length + pr.2.sell.length = tradesInWindow past pr.1 c
  rw [tradesInWindow_eq_symCount past pr.1 c hpastw]
  exact hlen pr.1 pr.2 hfind

theorem c4_aux (pairs : List Symb) (threshold : ℚ) (hnd : pairs.Nodup) :
    ∀ (ts : List Trade) (s : AggState) (c : ℕ) (past : List Trade),
      (∀ t ∈ ts, t.symbol ∈ pairs) →
      s.currentInterval = some c →
      keysOf s.txns = pairs →
      (∀ p sides, pmFind s.txns p = some sides →
          sides.buy.length + sides.sell.length = symCount past p) →
      (∀ t ∈ past, t.windowStart = c) →
      nondecB (ts.map Trade.windowStart) = true →
      (∀ t ∈ ts, c ≤ t.windowStart) →
      ∀ f ∈ (runTrades pairs threshold s ts).2 ++
          closeEmits (runTrades pairs threshold s ts).1,
        ∀ d ∈ f.stats,
          docCount d = tradesInWindow (past ++ ts) d.symbol d.timestamp ∧ c ≤ d.timestamp := by
  intro ts
  induction ts with
  | nil =>
    intro s c past hsym hcur hkeys hlen hpastw hmono hfut f hf d hd
    rw [runTrades_nil] at hf
    simp only [List.nil_append] at hf
    unfold closeEmits at hf
    by_cases htx : s.txns = []
    · rw [if_pos htx] at hf
      simp at hf
    · rw [if_neg htx, hcur] at hf
      have hfeq : f = processAndStore c s.txns s.bigTxns := by simpa using hf
      subst hfeq
      have h := processAndStore_doc_counts c s.txns s.bigTxns past (hkeys ▸ hnd) hlen hpastw d hd
      rw [List.append_nil]
      exact ⟨h.1, le_of_eq h.2.symm⟩
  | cons t ts ih =>
    intro s c past hsym hcur hkeys hlen hpastw hmono hfut f hf d hd
    have hsymt : t.symbol ∈ pairs := hsym t (List.mem_cons_self t ts)
    have hsym' : ∀ u ∈ ts, u.symbol ∈ pairs := fun u hu => hsym u (List.mem_cons_of_mem t hu)
    have hfutt : c ≤ t.windowStart := hfut t (List.mem_cons_self t ts)
    have hmono' : nondecB (ts.map Trade.windowStart) = true :=
      nondecB_tail t.windowStart (ts.map Trade.windowStart) hmono
    have hge : ∀ u ∈ ts, t.windowStart ≤ u.windowStart := fun u hu =>
      nondecB_head_le t.windowStart (ts.map Trade.windowStart) hmono u.windowStart
        (List.mem_map_of_mem Trade.windowStart hu)
    rw [runTrades_cons] at hf
    by_cases hroll : c < t.windowStart
    · -- window advance: the open window c is flushed, a fresh one opens at t.windowStart
      have hrollb : rollCheck s.currentInterval t.windowStart = true := by
        rw [hcur]; simpa [rollCheck] using hroll
      have hmsg := handleMessage_roll pairs threshold s t hrollb
      have hfind : pmFind (rolledState pairs t.windowStart).txns t.symbol = some emptySides :=
        pmFind_rolledState pairs t.windowStart t.symbol hsymt
      have hacc := accumulate_found threshold t
        (s.currentInterval.map (fun c0 => processAndStore c0 s.txns s.bigTxns))
        (rolledState pairs t.windowStart) emptySides hfind
      have hflush : (handleMessage pairs threshold s t).flush =
          some (processAndStore c s.txns s.bigTxns) := by
        rw [hmsg, accumulate_flush, hcur]
        rfl
      have hstate1 : (handleMessage pairs threshold s t).state.currentInterval =
          some t.windowStart := by rw [hmsg, hacc.1]; rfl
      have hstate2 : (handleMessage pairs threshold s t).state.txns =
          pmUpdate (pmInit pairs) t.symbol (fun l => l.append1 t.side t.toEntry) := by
        rw [hmsg, hacc.2.1]; rfl
      rw [hflush] at hf
      simp only [Option.toList_some, List.cons_append, List.mem_cons] at hf
      rcases hf with hf | hf
      · -- d belongs to the flush of the closing window c
        subst hf
        obtain ⟨hcount, hts⟩ :=
          processAndStore_doc_counts c s.txns s.bigTxns past (hkeys ▸ hnd) hlen hpastw d hd
        have hnotc : ∀ u ∈ t :: ts, u.windowStart ≠ c := by
          intro u hu
          rcases List.mem_cons.mp hu with h1 | h1
          · subst h1; omega
          · have := hge u h1; omega
        rw [hts] at hcount ⊢
        refine ⟨?_, le_refl c⟩
        rw [tradesInWindow_append, tradesInWindow_eq_zero (t :: ts) d.symbol c hnotc,
          Nat.add_zero]
        exact hcount
      · -- d belongs to a later flush, produced from the fresh window onward
        have hkeys' : keysOf (handleMessage pairs threshold s t).state.txns = pairs := by
          rw [hstate2, keysOf_pmUpdate, keysOf_pmInit]
        have hlen' : ∀ p sides,
            pmFind (handleMessage pairs threshold s t).state.txns p = some sides →
            sides.buy.length + sides.sell.length = symCount [t] p := by
          intro p sides hfind2
          rw [hstate2, pmFind_pmUpdate] at hfind2
          by_cases hp : t.symbol = p
          · rw [if_pos hp, pmFind_pmInit, if_pos (hp ▸ hsymt)] at hfind2
            have hsides : sides = SideLists.append1 emptySides t.side t.toEntry := by
              simpa using hfind2.symm
            subst hsides
            rw [sidesLen_append1]
            simp [emptySides, symCount, hp]
          · rw [if_neg hp, pmFind_pmInit] at hfind2
            by_cases hpm : p ∈ pairs
            · rw [if_pos hpm] at hfind2
              have hsides : sides = emptySides := by simpa using hfind2.symm
              subst hsides
              simp [emptySides, symCount, hp]
            · rw [if_neg hpm] at hfind2
              exact absurd hfind2 (by simp)
        have hpastw' : ∀ u ∈ [t], u.windowStart = t.windowStart := by simp
        have hconc := ih (handleMessage pairs threshold s t).state t.windowStart [t]
          hsym' hstate1 hkeys' hlen' hpastw' hmono' hge f hf d hd
        have hw : t.windowStart ≤ d.timestamp := hconc.2
        have hpastzero : tradesInWindow past d.symbol d.timestamp = 0 := by
          apply tradesInWindow_eq_zero
          intro u hu
          have := hpastw u hu
          omega
        refine ⟨?_, by omega⟩
        rw [tradesInWindow_append, hpastzero, Nat.zero_add]
        simpa using hconc.1
    · -- t folds into the still-open window (its windowStart equals c)
      have hieq : t.windowStart = c := by omega
      have hrollb : ¬rollCheck s.currentInterval t.windowStart = true := by
        rw [hcur]; simpa [rollCheck] using hroll
      have hmsg := handleMessage_noRoll pairs threshold s t hrollb
      obtain ⟨d0, hd0⟩ := pmFind_isSome_of_mem_keys s.txns t.symbol (hkeys ▸ hsymt)
      have hacc := accumulate_found threshold t none s d0 hd0
      have hflush : (handleMessage pairs threshold s t).flush = none := by
        rw [hmsg, accumulate_flush]
      have hstate1 : (handleMessage pairs threshold s t).state.currentInterval = some c := by
        rw [hmsg, hacc.1, hcur]
      have hstate2 : (handleMessage pairs threshold s t).state.txns =
          pmUpdate s.txns t.symbol (fun l => l.append1 t.side t.toEntry) := by
        rw [hmsg, hacc.2.1]
      rw [hflush] at hf
      simp only [Option.toList_none, List.nil_append] at hf
      have hkeys' : keysOf (handleMessage pairs threshold s t).state.txns = pairs := by
        rw [hstate2, keysOf_pmUpdate]
        exact hkeys
      have hlen' : ∀ p sides,
          pmFind (handleMessage pairs threshold s t).state.txns p = some sides →
          sides.buy.length + sides.sell.length = symCount (past ++ [t]) p := by
        intro p sides hfind2
        rw [hstate2, pmFind_pmUpdate] at hfind2
        by_cases hp : t.symbol = p
        · rw [if_pos hp] at hfind2
          cases hold : pmFind s.txns p with
          | none =>
            rw [hold] at hfind2
            exact absurd hfind2 (by simp)
          | some old =>
            rw [hold] at hfind2
            have hsides : sides = old.append1 t.side t.toEntry := by
              simpa using hfind2.symm
            subst hsides
            rw [sidesLen_append1, hlen p old hold, symCount_append_one, if_pos hp]
        · rw [if_neg hp] at hfind2
          rw [hlen p sides hfind2, symCount_append_one, if_neg hp, Nat.add_zero]
      have hpastw' : ∀ u ∈ past ++ [t], u.windowStart = c := by
        intro u hu
        rcases List.mem_append.mp hu with h1 | h1
        · exact hpastw u h1
        · have : u = t := by simpa using h1
          subst this
          exact hieq
      have hfut' : ∀ u ∈ ts, c ≤ u.windowStart := fun u hu => hieq ▸ hge u hu
      have hconc := ih (handleMessage pairs threshold s t).state c (past ++ [t])
        hsym' hstate1 hkeys' hlen' hpastw' hmono' hfut' f hf d hd
      simpa [List.append_assoc] using hconc

/-- Counterexample to claim C4: per-symbol monotone windowStarts are not
enough, because the open window is global, not per symbol.  The trace
BTCUSDT@5s, ETHUSDT@3s, BTCUSDT@6s has monotone windowStarts within each
symbol, yet the late ETHUSDT trade is folded into the global window 5:
the record emitted for ETHUSDT in window 5 counts 1 trade, while no ETHUSDT
trade has truncated event time 5. -/
theorem c4_count_conservation_counterexample :
    perSymbolMonotone ["BTCUSDT", "ETHUSDT"]
      [⟨"BTCUSDT", 1, 1, 5000, false⟩, ⟨"ETHUSDT", 1, 1, 3000, false⟩,
       ⟨"BTCUSDT", 1, 1, 6000, false⟩] = true ∧
    ¬countsMatch ["BTCUSDT", "ETHUSDT"] 10000
      [⟨"BTCUSDT", 1, 1, 5000, false⟩, ⟨"ETHUSDT", 1, 1, 3000, false⟩,
       ⟨"BTCUSDT", 1, 1, 6000, false⟩] :=
  ⟨by decide, by decide⟩

/-- Claim C4, amended: for every sequence of trades of configured symbols
whose windowStart values are monotonically non-decreasing across the whole
arrival sequence (not merely per symbol — the open window is shared by all
symbols), each emitted window record's buy-side count plus sell-side count
equals the number of processed trades of that symbol whose truncated event
time falls in that window. -/
theorem c4_count_conservation_amended (pairs : List Symb) (threshold : ℚ)
    (trace : List Trade) (hnd : pairs.Nodup) (hsym : ∀ t ∈ trace, t.symbol ∈ pairs)
    (hmono : globallyMonotone trace = true) :
    countsMatch pairs threshold trace := by
  intro f hf d hd
  cases trace with
  | nil =>
    unfold allFlushes at hf
    rw [runTrades_nil] at hf
    simp [closeEmits, initState] at hf
  | cons t ts =>
    have hsymt : t.symbol ∈ pairs := hsym t (List.mem_cons_self t ts)
    have hrollb : rollCheck initState.currentInterval t.windowStart = true := rfl
    have hmsg := handleMessage_roll pairs threshold initState t hrollb
    have hfind : pmFind (rolledState pairs t.windowStart).txns t.symbol = some emptySides :=
      pmFind_rolledState pairs t.windowStart t.symbol hsymt
    have hacc := accumulate_found threshold t
      (initState.currentInterval.map
        (fun c0 => processAndStore c0 initState.txns initState.bigTxns))
      (rolledState pairs t.windowStart) emptySides hfind
    have hflush : (handleMessage pairs threshold initState t).flush = none := by
      rw [hmsg, accumulate_flush]
      rfl
    have hstate1 : (handleMessage pairs threshold initState t).state.currentInterval =
        some t.windowStart := by rw [hmsg, hacc.1]; rfl
    have hstate2 : (handleMessage pairs threshold initState t).state.txns =
        pmUpdate (pmInit pairs) t.symbol (fun l => l.append1 t.side t.toEntry) := by
      rw [hmsg, hacc.2.1]; rfl
    unfold allFlushes at hf
    rw [runTrades_cons, hflush] at hf
    simp only [Option.toList_none, List.nil_append] at hf
    have hsym' : ∀ u ∈ ts, u.symbol ∈ pairs := fun u hu => hsym u (List.mem_cons_of_mem t hu)
    have hmono' : nondecB (ts.map Trade.windowStart) = true :=
      nondecB_tail t.windowStart (ts.map Trade.windowStart) hmono
    have hge : ∀ u ∈ ts, t.windowStart ≤ u.windowStart := fun u hu =>
      nondecB_head_le t.windowStart (ts.map Trade.windowStart) hmono u.windowStart
        (List.mem_map_of_mem Trade.windowStart hu)
    have hkeys' : keysOf (handleMessage pairs threshold initState t).state.txns = pairs := by
      rw [hstate2, keysOf_pmUpdate, keysOf_pmInit]
    have hlen' : ∀ p sides,
        pmFind (handleMessage pairs threshold initState t).state.txns p = some sides →
        sides.buy.length + sides.sell.length = symCount [t] p := by
      intro p sides hfind2
      rw [hstate2, pmFind_pmUpdate] at hfind2
      by_cases hp : t.symbol = p
      · rw [if_pos hp, pmFind_pmInit, if_pos (hp ▸ hsymt)] at hfind2
        have hsides : sides = SideLists.append1 emptySides t.side t.toEntry := by
          simpa using hfind2.symm
        subst hsides
        rw [sidesLen_append1]
        simp [emptySides, symCount, hp]
      · rw [if_neg hp, pmFind_pmInit] at hfind2
        by_cases hpm : p ∈ pairs
        · rw [if_pos hpm] at hfind2
          have hsides : sides = emptySides := by simpa using hfind2.symm
          subst hsides
          simp [emptySides, symCount, hp]
        · rw [if_neg hpm] at hfind2
          exact absurd hfind2 (by simp)
    have hpastw' : ∀ u ∈ [t], u.windowStart = t.windowStart := by simp
    have hconc := c4_aux pairs threshold hnd ts
      (handleMessage pairs threshold initState t).state t.windowStart [t]
      hsym' hstate1 hkeys' hlen' hpastw' hmono' hge f hf d hd
    simpa using hconc.1

/-- Witness for c4_count_conservation_amended on a globally monotone
two-symbol trace, including its countsMatch conclusion. -/
theorem c4_count_conservation_amended_witness :
    (["BTCUSDT", "ETHUSDT"].Nodup ∧
      (∀ t ∈ [(⟨"BTCUSDT", 1, 1, 3000, false⟩ : Trade), ⟨"ETHUSDT", 2, 1, 3500, true⟩,
          ⟨"BTCUSDT", 3, 2, 6000, false⟩],
        t.symbol ∈ ["BTCUSDT", "ETHUSDT"]) ∧
      globallyMonotone [⟨"BTCUSDT", 1, 1, 3000, false⟩, ⟨"ETHUSDT", 2, 1, 3500, true⟩,
        ⟨"BTCUSDT", 3, 2, 6000, false⟩] = true) ∧
    countsMatch ["BTCUSDT", "ETHUSDT"] 10000
      [⟨"BTCUSDT", 1, 1, 3000, false⟩, ⟨"ETHUSDT", 2, 1, 3500, true⟩,
       ⟨"BTCUSDT", 3, 2, 6000, false⟩] :=
  ⟨⟨by decide, by decide, by decide⟩,
   c4_count_conservation_amended ["BTCUSDT", "ETHUSDT"] 10000
     [⟨"BTCUSDT", 1, 1, 3000, false⟩, ⟨"ETHUSDT", 2, 1, 3500, true⟩,
      ⟨"BTCUSDT", 3, 2, 6000, false⟩] (by decide) (by decide) (by decide)⟩

/- Big-transaction bookkeeping lemmas. -/

set_option maxHeartbeats 1000000 in
theorem mkBigDoc_toBigEntry (t : Trade) :
    mkBigDoc t.symbol t.side t.toBigEntry = t.toBigDoc := by
  simp [mkBigDoc, Trade.toBigDoc, Trade.toBigEntry]

theorem toBigDoc_value (t : Trade) : (Trade.toBigDoc t).value = t.value := rfl

theorem bigDocsFor_pmUpdate_ne (bigs : PairMap BigEntry) (sym p : Symb)
    (f : SideLists BigEntry → SideLists BigEntry) (h : ¬sym = p) :
    bigDocsFor (pmUpdate bigs sym f) p = bigDocsFor bigs p := by
  unfold bigDocsFor
  rw [pmFind_pmUpdate, if_neg h]

theorem bigDumpKeys_pmUpdate_not_mem (ks : List Symb) (bigs : PairMap BigEntry) (sym : Symb)
    (f : SideLists BigEntry → SideLists BigEntry) (h : sym ∉ ks) :
    bigDumpKeys ks (pmUpdate bigs sym f) = bigDumpKeys ks bigs := by
  induction ks with
  | nil => rfl
  | cons k rest ih =>
    have hk : ¬sym = k := fun he => h (by simp [he])
    have hrest : sym ∉ rest := fun hx => h (List.mem_cons_of_mem _ hx)
    unfold bigDumpKeys
    simp only [List.flatMap_cons]
    rw [bigDocsFor_pmUpdate_ne bigs sym k f hk]
    have := ih hrest
    unfold bigDumpKeys at this
    rw [this]

theorem bigDumpKeys_pmInit (ks pairs : List Symb) :
    bigDumpKeys ks (pmInit pairs) = [] := by
  induction ks with
  | nil => rfl
  | cons k rest ih =>
    unfold bigDumpKeys
    simp only [List.flatMap_cons]
    have hdocs : bigDocsFor (pmInit pairs) k = [] := by
      unfold bigDocsFor
      rw [pmFind_pmInit]
      by_cases h : k ∈ pairs <;> simp [h, emptySides]
    rw [hdocs]
    unfold bigDumpKeys at ih
    simpa using ih

theorem perm_insert_middle {α : Type} (X Y : List α) (a : α) :
    List.Perm (X ++ [a] ++ Y) (a :: (X ++ Y)) := by
  have h : X ++ [a] ++ Y = X ++ a :: Y := by simp
  rw [h]
  exact List.perm_middle

theorem bigDumpKeys_append1_perm (ks : List Symb) (bigs : PairMap BigEntry) (sym : Symb)
    (sd : Side) (e : BigEntry) (old : SideLists BigEntry) (hnd : ks.Nodup) (hmem : sym ∈ ks)
    (hold : pmFind bigs sym = some old) :
    List.Perm (bigDumpKeys ks (pmUpdate bigs sym (fun l => l.append1 sd e)))
      (mkBigDoc sym sd e :: bigDumpKeys ks bigs) := by
  induction ks with
  | nil => simp at hmem
  | cons k rest ih =>
    rw [List.nodup_cons] at hnd
    by_cases hk : k = sym
    · subst hk
      have hrest : k ∉ rest := hnd.1
      unfold bigDumpKeys
      simp only [List.flatMap_cons]
      have hdump := bigDumpKeys_pmUpdate_not_mem rest bigs k (fun l => l.append1 sd e) hrest
      unfold bigDumpKeys at hdump
      rw [hdump]
      have hdocs : bigDocsFor (pmUpdate bigs k (fun l => l.append1 sd e)) k =
          (old.append1 sd e).buy.map (mkBigDoc k Side.buy) ++
            (old.append1 sd e).sell.map (mkBigDoc k Side.sell) := by
        unfold bigDocsFor
        rw [pmFind_pmUpdate, if_pos rfl, hold]
        rfl
      have holddocs : bigDocsFor bigs k =
          old.buy.map (mkBigDoc k Side.buy) ++ old.sell.map (mkBigDoc k Side.sell) := by
        unfold bigDocsFor
        rw [hold]
        rfl
      rw [hdocs, holddocs]
      cases sd
      · simp only [SideLists.append1, List.map_append, List.map_cons, List.map_nil]
        have hperm := perm_insert_middle (old.buy.map (mkBigDoc k Side.buy))
          (old.sell.map (mkBigDoc k Side.sell) ++ rest.flatMap (bigDocsFor bigs))
          (mkBigDoc k Side.buy e)
        simp only [List.append_assoc, List.singleton_append] at hperm ⊢
        exact hperm
      · simp only [SideLists.append1, List.map_append, List.map_cons, List.map_nil]
        have hperm := perm_insert_middle
          (old.buy.map (mkBigDoc k Side.buy) ++ old.sell.map (mkBigDoc k Side.sell))
          (rest.flatMap (bigDocsFor bigs)) (mkBigDoc k Side.sell e)
        simp only [List.append_assoc, List.singleton_append] at hperm ⊢
        exact hperm
    · have hmem' : sym ∈ rest := by
        rcases List.mem_cons.mp hmem with h1 | h1
        · exact absurd h1.symm hk
        · exact h1
      unfold bigDumpKeys
      simp only [List.flatMap_cons]
      rw [bigDocsFor_pmUpdate_ne bigs sym k _ (fun he => hk he.symm)]
      have ihp := ih hnd.2 hmem'
      unfold bigDumpKeys at ihp
      exact (List.Perm.append_left (bigDocsFor bigs k) ihp).trans List.perm_middle

theorem accumulate_found_big (threshold : ℚ) (t : Trade) (fl : Option Flush) (s1 : AggState)
    (d : SideLists TxEntry) (h : pmFind s1.txns t.symbol = some d) :
    (accumulate threshold t fl s1).state.bigTxns =
      if threshold ≤ t.value then
        pmUpdate s1.bigTxns t.symbol (fun l => l.append1 t.side t.toBigEntry)
      else s1.bigTxns := by
  unfold accumulate
  rw [h]
  by_cases hbig : threshold ≤ t.value <;> simp [hbig]

theorem bigDump_pmUpdate_txns (txns : PairMap TxEntry) (p : Symb)
    (f : SideLists TxEntry → SideLists TxEntry) (bigs : PairMap BigEntry) :
    bigDump (pmUpdate txns p f) bigs = bigDump txns bigs := by
  unfold bigDump
  rw [keysOf_pmUpdate]

theorem bigDump_eq_keys (txns : PairMap TxEntry) (bigs : PairMap BigEntry) :
    bigDump txns bigs = bigDumpKeys (keysOf txns) bigs := rfl

theorem c6_aux (pairs : List Symb) (threshold : ℚ) (hnd : pairs.Nodup) :
    ∀ (ts : List Trade) (s : AggState) (c : ℕ),
      (∀ t ∈ ts, t.symbol ∈ pairs) →
      s.currentInterval = some c →
      keysOf s.txns = pairs →
      keysOf s.bigTxns = pairs →
      List.Perm
        (((runTrades pairs threshold s ts).2.flatMap Flush.bigs) ++
          bigDump (runTrades pairs threshold s ts).1.txns
            (runTrades pairs threshold s ts).1.bigTxns)
        (bigDump s.txns s.bigTxns ++
          (ts.filter (fun t => decide (threshold ≤ t.value))).map Trade.toBigDoc) ∧
      keysOf (runTrades pairs threshold s ts).1.txns = pairs ∧
      keysOf (runTrades pairs threshold s ts).1.bigTxns = pairs ∧
      (∃ c2, (runTrades pairs threshold s ts).1.currentInterval = some c2) := by
  intro ts
  induction ts with
  | nil =>
    intro s c hsym hcur hkt hkb
    rw [runTrades_nil]
    exact ⟨by simp, hkt, hkb, ⟨c, hcur⟩⟩
  | cons t ts ih =>
    intro s c hsym hcur hkt hkb
    have hsymt : t.symbol ∈ pairs := hsym t (List.mem_cons_self t ts)
    have hsym' : ∀ u ∈ ts, u.symbol ∈ pairs := fun u hu => hsym u (List.mem_cons_of_mem t hu)
    rw [runTrades_cons]
    by_cases hroll : c < t.windowStart
    · -- the open window c is flushed; its pending big docs are emitted with it
      have hrollb : rollCheck s.currentInterval t.windowStart = true := by
        rw [hcur]; simpa [rollCheck] using hroll
      have hmsg := handleMessage_roll pairs threshold s t hrollb
      have hfind : pmFind (rolledState pairs t.windowStart).txns t.symbol = some emptySides :=
        pmFind_rolledState pairs t.windowStart t.symbol hsymt
      have hacc := accumulate_found threshold t
        (s.currentInterval.map (fun c0 => processAndStore c0 s.txns s.bigTxns))
        (rolledState pairs t.windowStart) emptySides hfind
      have haccB := accumulate_found_big threshold t
        (s.currentInterval.map (fun c0 => processAndStore c0 s.txns s.bigTxns))
        (rolledState pairs t.windowStart) emptySides hfind
      have hflush : (handleMessage pairs threshold s t).flush =
          some (processAndStore c s.txns s.bigTxns) := by
        rw [hmsg, accumulate_flush, hcur]
        rfl
      have hstate1 : (handleMessage pairs threshold s t).state.currentInterval =
          some t.windowStart := by rw [hmsg, hacc.1]; rfl
      have hstate2 : (handleMessage pairs threshold s t).state.txns =
          pmUpdate (pmInit pairs) t.symbol (fun l => l.append1 t.side t.toEntry) := by
        rw [hmsg, hacc.2.1]; rfl
      have hstate3 : (handleMessage pairs threshold s t).state.bigTxns =
          if threshold ≤ t.value then
            pmUpdate (pmInit pairs) t.symbol (fun l => l.append1 t.side t.toBigEntry)
          else pmInit pairs := by rw [hmsg, haccB]; rfl
      have hkt' : keysOf (handleMessage pairs threshold s t).state.txns = pairs := by
        rw [hstate2, keysOf_pmUpdate, keysOf_pmInit]
      have hkb' : keysOf (handleMessage pairs threshold s t).state.bigTxns = pairs := by
        rw [hstate3]
        by_cases hbig : threshold ≤ t.value
        · rw [if_pos hbig, keysOf_pmUpdate, keysOf_pmInit]
        · rw [if_neg hbig, keysOf_pmInit]
      obtain ⟨hperm, hktf, hkbf, hcf⟩ :=
        ih (handleMessage pairs threshold s t).state t.windowStart hsym' hstate1 hkt' hkb'
      refine ⟨?_, hktf, hkbf, hcf⟩
      rw [hflush]
      simp only [Option.toList_some, List.cons_append, List.flatMap_cons, List.append_assoc]
      have hpasbigs : (processAndStore c s.txns s.bigTxns).bigs =
          bigDump s.txns s.bigTxns := rfl
      rw [hpasbigs]
      -- the fresh window's pending big docs are [t.toBigDoc] when t is big, else []
      have hfresh : List.Perm
          (bigDump (handleMessage pairs threshold s t).state.txns
            (handleMessage pairs threshold s t).state.bigTxns)
          (if threshold ≤ t.value then [t.toBigDoc] else []) := by
        rw [bigDump_eq_keys, hkt', hstate3]
        by_cases hbig : threshold ≤ t.value
        · rw [if_pos hbig, if_pos hbig]
          have hp := bigDumpKeys_append1_perm pairs (pmInit pairs) t.symbol t.side
            t.toBigEntry emptySides hnd hsymt (by rw [pmFind_pmInit, if_pos hsymt])
          rw [bigDumpKeys_pmInit, mkBigDoc_toBigEntry] at hp
          exact hp
        · rw [if_neg hbig, if_neg hbig, bigDumpKeys_pmInit]
      have htail : List.Perm
          ((runTrades pairs threshold (handleMessage pairs threshold s t).state ts).2.flatMap
              Flush.bigs ++
            bigDump (runTrades pairs threshold (handleMessage pairs threshold s t).state ts).1.txns
              (runTrades pairs threshold (handleMessage pairs threshold s t).state ts).1.bigTxns)
          ((if threshold ≤ t.value then [t.toBigDoc] else []) ++
            (ts.filter (fun u => decide (threshold ≤ u.value))).map Trade.toBigDoc) :=
        hperm.trans (List.Perm.append_right _ hfresh)
      have hfil : ((t :: ts).filter (fun u => decide (threshold ≤ u.value))).map Trade.toBigDoc =
          (if threshold ≤ t.value then [t.toBigDoc] else []) ++
            (ts.filter (fun u => decide (threshold ≤ u.value))).map Trade.toBigDoc := by
        by_cases hbig : threshold ≤ t.value
        · rw [if_pos hbig, List.filter_cons_of_pos (by simpa using hbig), List.map_cons]
          rfl
        · rw [if_neg hbig, List.filter_cons_of_neg (by simpa using hbig), List.nil_append]
      rw [hfil]
      exact List.Perm.append_left (bigDump s.txns s.bigTxns) htail
    · -- t folds into the open window; if big, its doc joins the pending list
      have hrollb : ¬rollCheck s.currentInterval t.windowStart = true := by
        rw [hcur]; simpa [rollCheck] using hroll
      have hmsg := handleMessage_noRoll pairs threshold s t hrollb
      obtain ⟨d0, hd0⟩ := pmFind_isSome_of_mem_keys s.txns t.symbol (hkt ▸ hsymt)
      have hacc := accumulate_found threshold t none s d0 hd0
      have haccB := accumulate_found_big threshold t none s d0 hd0
      have hflush : (handleMessage pairs threshold s t).flush = none := by
        rw [hmsg, accumulate_flush]
      have hstate1 : (handleMessage pairs threshold s t).state.currentInterval = some c := by
        rw [hmsg, hacc.1, hcur]
      have hstate2 : (handleMessage pairs threshold s t).state.txns =
          pmUpdate s.txns t.symbol (fun l => l.append1 t.side t.toEntry) := by
        rw [hmsg, hacc.2.1]
      have hstate3 : (handleMessage pairs threshold s t).state.bigTxns =
          if threshold ≤ t.value then
            pmUpdate s.bigTxns t.symbol (fun l => l.append1 t.side t.toBigEntry)
          else s.bigTxns := by rw [hmsg, haccB]
      have hkt' : keysOf (handleMessage pairs threshold s t).state.txns = pairs := by
        rw [hstate2, keysOf_pmUpdate]
        exact hkt
      have hkb' : keysOf (handleMessage pairs threshold s t).state.bigTxns = pairs := by
        rw [hstate3]
        by_cases hbig : threshold ≤ t.value
        · rw [if_pos hbig, keysOf_pmUpdate]
          exact hkb
        · rw [if_neg hbig]
          exact hkb
      obtain ⟨hperm, hktf, hkbf, hcf⟩ :=
        ih (handleMessage pairs threshold s t).state c hsym' hstate1 hkt' hkb'
      refine ⟨?_, hktf, hkbf, hcf⟩
      rw [hflush]
      simp only [Option.toList_none, List.nil_append]
      -- pending docs of the still-open window grow by t.toBigDoc exactly when t is big
      have hstep : List.Perm
          (bigDump (handleMessage pairs threshold s t).state.txns
            (handleMessage pairs threshold s t).state.bigTxns)
          ((if threshold ≤ t.value then [t.toBigDoc] else []) ++ bigDump s.txns s.bigTxns) := by
        rw [bigDump_eq_keys, hkt', hstate3]
        by_cases hbig : threshold ≤ t.value
        · rw [if_pos hbig, if_pos hbig]
          obtain ⟨oldb, holdb⟩ := pmFind_isSome_of_mem_keys s.bigTxns t.symbol (hkb ▸ hsymt)
          have hp := bigDumpKeys_append1_perm pairs s.bigTxns t.symbol t.side
            t.toBigEntry oldb hnd hsymt holdb
          rw [mkBigDoc_toBigEntry] at hp
          have hkeq : bigDumpKeys pairs s.bigTxns = bigDump s.txns s.bigTxns := by
            rw [bigDump_eq_keys, hkt]
          rw [hkeq] at hp
          exact hp
        · rw [if_neg hbig, if_neg hbig, List.nil_append, bigDump_eq_keys, hkt]
      have hfil : ((t :: ts).filter (fun u => decide (threshold ≤ u.value))).map Trade.toBigDoc =
          (if threshold ≤ t.value then [t.toBigDoc] else []) ++
            (ts.filter (fun u => decide (threshold ≤ u.value))).map Trade.toBigDoc := by
        by_cases hbig : threshold ≤ t.value
        · rw [if_pos hbig, List.filter_cons_of_pos (by simpa using hbig), List.map_cons]
          rfl
        · rw [if_neg hbig, List.filter_cons_of_neg (by simpa using hbig), List.nil_append]
      rw [hfil]
      have hlast : List.Perm
          (((if threshold ≤ t.value then [t.toBigDoc] else []) ++ bigDump s.txns s.bigTxns) ++
            (ts.filter (fun u => decide (threshold ≤ u.value))).map Trade.toBigDoc)
          (bigDump s.txns s.bigTxns ++
            ((if threshold ≤ t.value then [t.toBigDoc] else []) ++
              (ts.filter (fun u => decide (threshold ≤ u.value))).map Trade.toBigDoc)) := by
        by_cases hbig : threshold ≤ t.value
        · rw [if_pos hbig]
          simp only [List.singleton_append, List.cons_append, List.nil_append]
          exact List.perm_middle.symm
        · rw [if_neg hbig]
          simp
      exact (hperm.trans (List.Perm.append_right _ hstep)).trans hlast

/-- Claim C6: over a complete run (all trades processed, then close), the
emitted big-transaction documents are exactly — as a multiset, i.e. up to
permutation — the document images of the processed trades whose
price*quantity meets the threshold: every such trade appears in exactly one
BigTransaction entry (accumulated in the window that absorbed it and flushed
with that window's records), and a trade below the threshold never appears;
consequently every emitted big-transaction document has value ≥ threshold. -/
theorem c6_big_transaction_membership (pairs : List Symb) (threshold : ℚ)
    (trace : List Trade) (hnd : pairs.Nodup) (hsym : ∀ t ∈ trace, t.symbol ∈ pairs) :
    List.Perm (allBigDocs pairs threshold trace)
      ((trace.filter (fun t => decide (threshold ≤ t.value))).map Trade.toBigDoc) ∧
    (∀ dd ∈ allBigDocs pairs threshold trace, threshold ≤ dd.value) := by
  have hperm : List.Perm (allBigDocs pairs threshold trace)
      ((trace.filter (fun t => decide (threshold ≤ t.value))).map Trade.toBigDoc) := by
    cases trace with
    | nil => simp [allBigDocs, allFlushes, runTrades_nil, closeEmits, initState]
    | cons t ts =>
      have hsymt : t.symbol ∈ pairs := hsym t (List.mem_cons_self t ts)
      have hsym' : ∀ u ∈ ts, u.symbol ∈ pairs := fun u hu => hsym u (List.mem_cons_of_mem t hu)
      have hrollb : rollCheck initState.currentInterval t.windowStart = true := rfl
      have hmsg := handleMessage_roll pairs threshold initState t hrollb
      have hfind : pmFind (rolledState pairs t.windowStart).txns t.symbol = some emptySides :=
        pmFind_rolledState pairs t.windowStart t.symbol hsymt
      have hacc := accumulate_found threshold t
        (initState.currentInterval.map
          (fun c0 => processAndStore c0 initState.txns initState.bigTxns))
        (rolledState pairs t.windowStart) emptySides hfind
      have haccB := accumulate_found_big threshold t
        (initState.currentInterval.map
          (fun c0 => processAndStore c0 initState.txns initState.bigTxns))
        (rolledState pairs t.windowStart) emptySides hfind
      have hflush : (handleMessage pairs threshold initState t).flush = none := by
        rw [hmsg, accumulate_flush]
        rfl
      have hstate1 : (handleMessage pairs threshold initState t).state.currentInterval =
          some t.windowStart := by rw [hmsg, hacc.1]; rfl
      have hstate2 : (handleMessage pairs threshold initState t).state.txns =
          pmUpdate (pmInit pairs) t.symbol (fun l => l.append1 t.side t.toEntry) := by
        rw [hmsg, hacc.2.1]; rfl
      have hstate3 : (handleMessage pairs threshold initState t).state.bigTxns =
          if threshold ≤ t.value then
            pmUpdate (pmInit pairs) t.symbol (fun l => l.append1 t.side t.toBigEntry)
          else pmInit pairs := by rw [hmsg, haccB]; rfl
      have hkt' : keysOf (handleMessage pairs threshold initState t).state.txns = pairs := by
        rw [hstate2, keysOf_pmUpdate, keysOf_pmInit]
      have hkb' : keysOf (handleMessage pairs threshold initState t).state.bigTxns = pairs := by
        rw [hstate3]
        by_cases hbig : threshold ≤ t.value
        · rw [if_pos hbig, keysOf_pmUpdate, keysOf_pmInit]
        · rw [if_neg hbig, keysOf_pmInit]
      obtain ⟨hperm0, hktf, hkbf, c2, hcf⟩ :=
        c6_aux pairs threshold hnd ts (handleMessage pairs threshold initState t).state
          t.windowStart hsym' hstate1 hkt' hkb'
      have htxne : (runTrades pairs threshold
          (handleMessage pairs threshold initState t).state ts).1.txns ≠ [] := by
        intro he
        rw [he] at hktf
        rw [← hktf] at hsymt
        simp [keysOf] at hsymt
      have hclose : closeEmits (runTrades pairs threshold
          (handleMessage pairs threshold initState t).state ts).1 =
          [processAndStore c2
            (runTrades pairs threshold (handleMessage pairs threshold initState t).state ts).1.txns
            (runTrades pairs threshold
              (handleMessage pairs threshold initState t).state ts).1.bigTxns] := by
        unfold closeEmits
        rw [if_neg htxne, hcf]
      have habd : allBigDocs pairs threshold (t :: ts) =
          (runTrades pairs threshold
              (handleMessage pairs threshold initState t).state ts).2.flatMap Flush.bigs ++
            bigDump
              (runTrades pairs threshold
                (handleMessage pairs threshold initState t).state ts).1.txns
              (runTrades pairs threshold
                (handleMessage pairs threshold initState t).state ts).1.bigTxns := by
        unfold allBigDocs allFlushes
        simp only [runTrades_cons, hflush, Option.toList_none, List.nil_append]
        rw [hclose]
        simp [processAndStore]
      have hfresh : List.Perm
          (bigDump (handleMessage pairs threshold initState t).state.txns
            (handleMessage pairs threshold initState t).state.bigTxns)
          (if threshold ≤ t.value then [t.toBigDoc] else []) := by
        rw [bigDump_eq_keys, hkt', hstate3]
        by_cases hbig : threshold ≤ t.value
        · rw [if_pos hbig, if_pos hbig]
          have hp := bigDumpKeys_append1_perm pairs (pmInit pairs) t.symbol t.side
            t.toBigEntry emptySides hnd hsymt (by rw [pmFind_pmInit, if_pos hsymt])
          rw [bigDumpKeys_pmInit, mkBigDoc_toBigEntry] at hp
          exact hp
        · rw [if_neg hbig, if_neg hbig, bigDumpKeys_pmInit]
      have hfil : ((t :: ts).filter (fun u => decide (threshold ≤ u.value))).map Trade.toBigDoc =
          (if threshold ≤ t.value then [t.toBigDoc] else []) ++
            (ts.filter (fun u => decide (threshold ≤ u.value))).map Trade.toBigDoc := by
        by_cases hbig : threshold ≤ t.value
        · rw [if_pos hbig, List.filter_cons_of_pos (by simpa using hbig), List.map_cons]
          rfl
        · rw [if_neg hbig, List.filter_cons_of_neg (by simpa using hbig), List.nil_append]
      rw [habd, hfil]
      exact hperm0.trans (List.Perm.append_right _ hfresh)
  refine ⟨hperm, ?_⟩
  intro dd hdd
  have hmem := hperm.mem_iff.mp hdd
  obtain ⟨u, hu, hds⟩ := List.mem_map.mp hmem
  have hfu := List.mem_filter.mp hu
  rw [← hds, toBigDoc_value]
  exact of_decide_eq_true hfu.2

/-- Witness for c6_big_transaction_membership: a three-trade run with one
big trade (value 20000 ≥ 10000) emits exactly its document, once. -/
theorem c6_big_transaction_membership_witness :
    (["BTCUSDT", "ETHUSDT"].Nodup ∧
      (∀ t ∈ [(⟨"BTCUSDT", 20000, 1, 3000, false⟩ : Trade), ⟨"ETHUSDT", 5, 1, 3500, true⟩,
          ⟨"BTCUSDT", 3, 2, 6000, false⟩],
        t.symbol ∈ ["BTCUSDT", "ETHUSDT"])) ∧
    List.Perm (allBigDocs ["BTCUSDT", "ETHUSDT"] 10000
        [⟨"BTCUSDT", 20000, 1, 3000, false⟩, ⟨"ETHUSDT", 5, 1, 3500, true⟩,
         ⟨"BTCUSDT", 3, 2, 6000, false⟩])
      ((([(⟨"BTCUSDT", 20000, 1, 3000, false⟩ : Trade), ⟨"ETHUSDT", 5, 1, 3500, true⟩,
          ⟨"BTCUSDT", 3, 2, 6000, false⟩]).filter
            (fun t => decide ((10000 : ℚ) ≤ t.value))).map Trade.toBigDoc) ∧
    (∀ dd ∈ allBigDocs ["BTCUSDT", "ETHUSDT"] 10000
        [⟨"BTCUSDT", 20000, 1, 3000, false⟩, ⟨"ETHUSDT", 5, 1, 3500, true⟩,
         ⟨"BTCUSDT", 3, 2, 6000, false⟩], (10000 : ℚ) ≤ dd.value) :=
  ⟨⟨by decide, by decide⟩,
   (c6_big_transaction_membership ["BTCUSDT", "ETHUSDT"] 10000
     [⟨"BTCUSDT", 20000, 1, 3000, false⟩, ⟨"ETHUSDT", 5, 1, 3500, true⟩,
      ⟨"BTCUSDT", 3, 2, 6000, false⟩] (by decide) (by decide)).1,
   (c6_big_transaction_membership ["BTCUSDT", "ETHUSDT"] 10000
     [⟨"BTCUSDT", 20000, 1, 3000, false⟩, ⟨"ETHUSDT", 5, 1, 3500, true⟩,
      ⟨"BTCUSDT", 3, 2, 6000, false⟩] (by decide) (by decide)).2⟩
